import Mathlib

/-!
Verification of the chain/brand-detection core of the business-site advisor
repository (src/utils/city_chain_detector.py, src/utils/llm_brand_detector.py,
src/cafe-advisor/agents/nodes/chain_brand_node.py).

Python strings are modelled as `List Char` (ASCII fragment: `str.lower`,
regex classes \s, \d, \w and the literal patterns of the source are modelled
over ASCII, which covers every input appearing in the specification and the
claims).  Python floats for coordinates, thresholds and confidences are
modelled as `ℚ`; the real-valued haversine distance is modelled over `ℝ`.
Each `re.sub(pattern, chars, s)` call of the source is modelled by a
left-to-right scanner (`scanSub`) together with a matcher implementing the
concrete pattern with leftmost, greedy (Python) semantics; none of the
patterns of the source can match the empty string, and each matcher returns
the number of consumed characters, which is always positive.
-/

namespace CityChain

/-- ASCII apostrophe, written via its code point. -/
def apos : Char := Char.ofNat 39

/-- Whitespace class of Python regex/str.split for ASCII text:
space, tab, newline, carriage return, vertical tab, form feed. -/
def isPySpace (c : Char) : Bool :=
  c = ' ' || c = '\t' || c = '\n' || c = '\r' || c = Char.ofNat 11 || c = Char.ofNat 12

/-- ASCII decimal digit, the \d class. -/
def isDigitCh (c : Char) : Bool := 48 ≤ c.toNat && c.toNat ≤ 57

/-- ASCII word character, the \w class. -/
def isWordCh (c : Char) : Bool :=
  (97 ≤ c.toNat && c.toNat ≤ 122) || (65 ≤ c.toNat && c.toNat ≤ 90) ||
    (48 ≤ c.toNat && c.toNat ≤ 57) || c = '_'

/-- Lowercase ASCII letter. -/
def isLowerAZ (c : Char) : Bool := 97 ≤ c.toNat && c.toNat ≤ 122

/-- Lowercase ASCII letter or the plain space character: the alphabet on
which the amended idempotence statement is proved. -/
def lowerOrSpace (c : Char) : Bool := isLowerAZ c || c = ' '

/-- Length of the maximal prefix of `l` whose characters satisfy `p`
(greedy run of a character class). -/
def spanLen (p : Char → Bool) : List Char → Nat
  | [] => 0
  | c :: cs => if p c then spanLen p cs + 1 else 0

/-- Last index at which character `a` occurs in `l`, if any. -/
def lastIdxOf (a : Char) : List Char → Option Nat
  | [] => none
  | c :: cs =>
    match lastIdxOf a cs with
    | some i => some (i + 1)
    | none => if c = a then some 0 else none

/-- Left-to-right global substitution by the empty string: at every position
try the matcher; on a match of `k` consumed characters (`k` is always ≥ 1 for
the matchers used here) drop them and continue after the match, otherwise
emit the character and move on.  This is `re.sub(pat, chars, s)` for patterns
that cannot match the empty string. -/
def scanSubF (m : List Char → Option Nat) : Nat → List Char → List Char
  | 0, l => l
  | _ + 1, [] => []
  | fuel + 1, c :: cs =>
    match m (c :: cs) with
    | some k =>
      if k = 0 then c :: scanSubF m fuel cs
      else scanSubF m fuel (List.drop (k - 1) cs)
    | none => c :: scanSubF m fuel cs

/-- Entry point of the scanner; the fuel `l.length` is sufficient because
every step of `scanSubF` consumes at least one character. -/
def scanSub (m : List Char → Option Nat) (l : List Char) : List Char :=
  scanSubF m l.length l

/-- Global replacement of the (nonempty) literal `pat` by the empty string,
left to right, non-overlapping: `str.replace(pat, chars)`. -/
def replaceListF (pat : List Char) : Nat → List Char → List Char
  | 0, l => l
  | _ + 1, [] => []
  | fuel + 1, c :: cs =>
    if pat.isPrefixOf (c :: cs) then replaceListF pat fuel (List.drop (pat.length - 1) cs)
    else c :: replaceListF pat fuel cs

/-- Entry point of the literal replacement; the fuel `l.length` is
sufficient because every step consumes at least one character. -/
def replaceList (pat : List Char) (l : List Char) : List Char :=
  replaceListF pat l.length l

/-- Matcher for `\s*X\s*.*` where `X` is the single separator character
(dash or comma patterns of the source); `.*` stops before a newline. -/
def matchSepToEOL (sep : Char) (l : List Char) : Option Nat :=
  let s := spanLen isPySpace l
  match l.drop s with
  | c :: rest =>
    if c = sep then
      let s2 := spanLen isPySpace rest
      let t := spanLen (fun c => c != '\n') (rest.drop s2)
      some (s + 1 + s2 + t)
    else none
  | [] => none

/-- Matcher for `\s*#\d+` (branch numbers). -/
def matchHash (l : List Char) : Option Nat :=
  let s := spanLen isPySpace l
  match l.drop s with
  | c :: rest =>
    if c = '#' then
      let d := spanLen isDigitCh rest
      if d = 0 then none else some (s + 1 + d)
    else none
  | [] => none

/-- Matcher for `\s*\(.*\)` (parenthetical content); the greedy `.*` reaches
to the last closing parenthesis before the next newline. -/
def matchParen (l : List Char) : Option Nat :=
  let s := spanLen isPySpace l
  match l.drop s with
  | c :: rest =>
    if c = '(' then
      match lastIdxOf ')' (rest.takeWhile (fun c => c != '\n')) with
      | some i => some (s + 1 + i + 1)
      | none => none
    else none
  | [] => none

/-- Matcher for `\s+kw\s*\d*` (branch/outlet/store/shop patterns). -/
def matchKwOptNum (kw : List Char) (l : List Char) : Option Nat :=
  let s := spanLen isPySpace l
  if s = 0 then none
  else
    let r := l.drop s
    if kw.isPrefixOf r then
      let r2 := r.drop kw.length
      let s2 := spanLen isPySpace r2
      let d := spanLen isDigitCh (r2.drop s2)
      some (s + kw.length + s2 + d)
    else none

/-- Matcher for `\s+kw\s+\d+` (sector/phase/scf/sco patterns). -/
def matchKwNum (kw : List Char) (l : List Char) : Option Nat :=
  let s := spanLen isPySpace l
  if s = 0 then none
  else
    let r := l.drop s
    if kw.isPrefixOf r then
      let r2 := r.drop kw.length
      let s2 := spanLen isPySpace r2
      if s2 = 0 then none
      else
        let d := spanLen isDigitCh (r2.drop s2)
        if d = 0 then none else some (s + kw.length + s2 + d)
    else none

/-- Matcher for `\s+block\s+\w+`. -/
def matchBlock (l : List Char) : Option Nat :=
  let s := spanLen isPySpace l
  if s = 0 then none
  else
    let r := l.drop s
    let kw := ['b', 'l', 'o', 'c', 'k']
    if kw.isPrefixOf r then
      let r2 := r.drop kw.length
      let s2 := spanLen isPySpace r2
      if s2 = 0 then none
      else
        let w := spanLen isWordCh (r2.drop s2)
        if w = 0 then none else some (s + kw.length + s2 + w)
    else none

/-- Matcher for `\s+kw.*` (mall/market/plaza/complex patterns). -/
def matchKwToEOL (kw : List Char) (l : List Char) : Option Nat :=
  let s := spanLen isPySpace l
  if s = 0 then none
  else
    let r := l.drop s
    if kw.isPrefixOf r then
      let t := spanLen (fun c => c != '\n') (r.drop kw.length)
      some (s + kw.length + t)
    else none

/-- Python `str.split()` with no argument: split on whitespace runs,
dropping empty pieces. -/
def pySplitF : Nat → List Char → List (List Char)
  | 0, _ => []
  | _ + 1, [] => []
  | fuel + 1, c :: cs =>
    if isPySpace c then pySplitF fuel cs
    else
      let w := List.takeWhile (fun x => !isPySpace x) (c :: cs)
      w :: pySplitF fuel (List.drop w.length (c :: cs))

/-- Entry point of whitespace splitting; the fuel `l.length` is sufficient
because every step consumes at least one character. -/
def pySplit (l : List Char) : List (List Char) :=
  pySplitF l.length l

/-- Single-space join of word lists: `chr(32).join(ws)`. -/
def joinSpace : List (List Char) → List Char
  | [] => []
  | [w] => w
  | w :: ws => w ++ ' ' :: joinSpace ws

/-- Python `str.strip()` for ASCII whitespace. -/
def pyStrip (l : List Char) : List Char :=
  ((l.dropWhile isPySpace).reverse.dropWhile isPySpace).reverse

/-- Keywords of the `\s+kw\s*\d*` patterns, in source order. -/
def optNumKws : List (List Char) :=
  [['b','r','a','n','c','h'], ['o','u','t','l','e','t'], ['s','t','o','r','e'], ['s','h','o','p']]

/-- Keywords of the `\s+kw\s+\d+` patterns, in source order. -/
def numKws : List (List Char) :=
  [['s','e','c','t','o','r'], ['p','h','a','s','e'], ['s','c','f'], ['s','c','o']]

/-- Keywords of the `\s+kw.*` patterns, in source order. -/
def eolKws : List (List Char) :=
  [['m','a','l','l'], ['m','a','r','k','e','t'], ['p','l','a','z','a'], ['c','o','m','p','l','e','x']]

/-- Sequential application of the seventeen `re.sub` calls of
`_normalize_brand_name`, in source order. -/
def applyPatterns (l : List Char) : List Char :=
  let l := scanSub (matchSepToEOL '-') l
  let l := scanSub (matchSepToEOL ',') l
  let l := scanSub matchHash l
  let l := scanSub matchParen l
  let l := optNumKws.foldl (fun l kw => scanSub (matchKwOptNum kw) l) l
  let l := numKws.foldl (fun l kw => scanSub (matchKwNum kw) l) l
  let l := scanSub matchBlock l
  let l := eolKws.foldl (fun l kw => scanSub (matchKwToEOL kw) l) l
  l

/-- Embedding of `CityChainDetector._normalize_brand_name` on character
lists: lowercase, strip possessives, remove the location/branch indicator
patterns, collapse whitespace, keep the first three words. -/
def normalizeChars (l : List Char) : List Char :=
  if l = [] then []
  else
    let l := l.map Char.toLower
    let l := replaceList [apos, 's'] l
    let l := replaceList [apos] l
    let l := applyPatterns l
    let l := pyStrip (joinSpace (pySplit l))
    let ws := pySplit l
    if ws.length > 3 then joinSpace (ws.take 3) else l

/-- Embedding of `CityChainDetector._normalize_brand_name` on strings. -/
def normalize_brand_name (s : String) : String :=
  String.mk (normalizeChars s.data)

/-- Absence of the eleven keyword triggers as a prefix of a word. -/
def kwPrefixFree (w : List Char) : Bool :=
  (optNumKws ++ eolKws).all fun kw => !kw.isPrefixOf w

/-- Word of the restricted alphabet on which normalization acts as the
identity: nonempty, lowercase ASCII letters only, with none of the
branch/outlet/store/shop/mall/market/plaza/complex keywords as a prefix
and not the word block itself. -/
def cleanWord (w : List Char) : Bool :=
  !w.isEmpty && w.all isLowerAZ && kwPrefixFree w && w != ['b', 'l', 'o', 'c', 'k']

/-- Phrase of at most three clean words. -/
def cleanWords (ws : List (List Char)) : Bool :=
  decide (ws.length ≤ 3) && ws.all cleanWord

/-- Business record of one search result as consumed by the detector.
Coordinates are optional (dict `.get` with default 0 in the source);
`area_name` is the location context forwarded to the classifier. -/
structure Business where
  name : String
  lat : Option ℚ
  lon : Option ℚ
  area_name : String
deriving DecidableEq

/-- Value of `business.get(key, 0)` for the `lat` key. -/
def Business.latD (b : Business) : ℚ := b.lat.getD 0

/-- Value of `business.get(key, 0)` for the `lon` key. -/
def Business.lonD (b : Business) : ℚ := b.lon.getD 0

/-- Row of the city-wide business database CSV. -/
structure CityRow where
  name : String
  lat : Option ℚ
  lon : Option ℚ
  address : String
  types : String
deriving DecidableEq

/-- Lookup in an association list, first occurrence of the key. -/
def lookupAssoc {α : Type} : List (String × α) → String → Option α
  | [], _ => none
  | (k1, v) :: rest, k => if k1 = k then some v else lookupAssoc rest k

/-- Dictionary assignment `d[k] = v`: replace the value at an existing key,
otherwise append the binding (insertion order of Python dicts). -/
def setAssoc {α : Type} : List (String × α) → String → α → List (String × α)
  | [], k, v => [(k, v)]
  | (k1, v1) :: rest, k, v =>
    if k1 = k then (k, v) :: rest else (k1, v1) :: setAssoc rest k v

/-- Appending to `defaultdict(list)[key]`: extend the group at an existing
key, otherwise insert a fresh singleton group at the end. -/
def addToGroups {α : Type} (key : String) (x : α) : List (String × List α) → List (String × List α)
  | [] => [(key, [x])]
  | (k, g) :: rest =>
    if k = key then (k, g ++ [x]) :: rest else (k, g) :: addToGroups key x rest

/-- Grouping step of `detect_chains_in_results`: group the businesses by
normalized name, skipping records with an empty name. -/
def nameGroups (bs : List Business) : List (String × List Business) :=
  bs.foldl
    (fun acc b =>
      if b.name = "" then acc else addToGroups (normalize_brand_name b.name) b acc) []

/-- Check of `_are_different_locations` that all four coordinates are
present and nonzero: `all([lat1, lon1, lat2, lon2])` on the `.get(_, 0)`
values (0 and a missing value are both falsy). -/
def coordsPresent (b1 b2 : Business) : Bool :=
  b1.latD != 0 && b1.lonD != 0 && b2.latD != 0 && b2.lonD != 0

/-- Embedding of `CityChainDetector._are_different_locations`, parameterized
by the distance test `far b1 b2` standing for
`_calculate_distance(...) >= min_distance_km`: some cross pair with all
coordinates present and nonzero passes the distance test. -/
def are_different_locations (far : Business → Business → Bool)
    (g1 g2 : List Business) : Bool :=
  g1.any fun b1 => g2.any fun b2 => coordsPresent b1 b2 && far b1 b2

/-- State of the inner (fuzzy-merge) loop of `detect_chains_in_results`:
the growing cluster, the collected literal names, the processed key set. -/
structure InnerSt where
  cluster : List Business
  names : List String
  processed : List String
deriving DecidableEq

/-- Body of the inner loop of `detect_chains_in_results` for one candidate
group `p`: skip the seed key and processed keys; on name similarity at least
the threshold and a qualifying cross-pair distance, absorb the group. -/
def innerStep (far : Business → Business → Bool) (sim : String → String → ℚ) (θ : ℚ)
    (key : String) (st : InnerSt) (p : String × List Business) : InnerSt :=
  if p.1 = key || st.processed.contains p.1 then st
  else if θ ≤ sim key p.1 then
    if are_different_locations far st.cluster p.2 then
      ⟨st.cluster ++ p.2, st.names ++ p.2.map (fun b => b.name), st.processed ++ [p.1]⟩
    else st
  else st

/-- Name frequencies over the cluster names (`defaultdict(int)` in insertion
order, empty names skipped). -/
def countNames (names : List String) : List (String × Nat) :=
  names.foldl
    (fun acc n =>
      if n = "" then acc
      else
        match lookupAssoc acc n with
        | some c => setAssoc acc n (c + 1)
        | none => acc ++ [(n, 1)]) []

/-- Python `max(items, key=count)`: the first item of maximal count. -/
def maxByCount : List (String × Nat) → Option String
  | [] => none
  | (n, c) :: rest =>
    some (rest.foldl (fun b q => if b.2 < q.2 then q else b) (n, c)).1

/-- State of the outer loop of `detect_chains_in_results`. -/
structure DetectSt where
  processed : List String
  chains : List (String × List Business)
deriving DecidableEq

/-- Body of the outer loop of `detect_chains_in_results` for one seed group
`p`: run the fuzzy-merge pass over all groups, then report the cluster under
its most frequent literal name if it has at least two members. -/
def outerStep (far : Business → Business → Bool) (sim : String → String → ℚ) (θ : ℚ)
    (groups : List (String × List Business)) (st : DetectSt)
    (p : String × List Business) : DetectSt :=
  if st.processed.contains p.1 then st
  else
    let fin := groups.foldl (innerStep far sim θ p.1)
      ⟨p.2, p.2.map (fun b => b.name), st.processed⟩
    if 2 ≤ fin.cluster.length then
      let cname :=
        match maxByCount (countNames fin.names) with
        | some nm => nm
        | none => match fin.cluster with | b :: _ => b.name | [] => p.1
      ⟨fin.processed ++ [p.1], setAssoc st.chains cname fin.cluster⟩
    else ⟨fin.processed ++ [p.1], st.chains⟩

/-- Embedding of `CityChainDetector.detect_chains_in_results`, parameterized
by the distance test `far` (the source compares the real-valued haversine
distance against 0.5 km) and the name-similarity function `sim` (the source
uses `difflib.SequenceMatcher(None, x, y).ratio()`). -/
def detect_chains_in_results (far : Business → Business → Bool)
    (sim : String → String → ℚ) (θ : ℚ) (bs : List Business) :
    List (String × List Business) :=
  if bs = [] then []
  else
    let groups := nameGroups bs
    (groups.foldl (outerStep far sim θ groups) ⟨[], []⟩).chains

/-- Similarity-threshold default of the source, `similarity_threshold = 0.85`. -/
def simThreshold : ℚ := 17 / 20

/-- Positions (ascending) of character `c` in `b`: the `b2j` table of
`difflib.SequenceMatcher`. -/
def positionsOf (b : List Char) (c : Char) : List Nat :=
  (List.range b.length).filter fun j => b.get? j = some c

/-- Lookup in a `Nat`-keyed association list (the `j2len` table). -/
def lookupNat : List (Nat × Nat) → Nat → Option Nat
  | [], _ => none
  | (k1, v) :: rest, k => if k1 = k then some v else lookupNat rest k

/-- Inner dynamic-programming step of `SequenceMatcher.find_longest_match`
for one row `i`: fold over the ascending occurrences `js` of `a[i]` in `b`,
reading run lengths from the previous row's table `prev`, building the new
row table, and tracking the first-found longest block. -/
def flmRow (blo bhi i : Nat) (js : List Nat) (prev : List (Nat × Nat))
    (best : Nat × Nat × Nat) : List (Nat × Nat) × (Nat × Nat × Nat) :=
  js.foldl
    (fun acc j =>
      if j < blo || bhi ≤ j then acc
      else
        let k := (if j = 0 then 0 else (lookupNat prev (j - 1)).getD 0) + 1
        ((j, k) :: acc.1,
          if acc.2.2.2 < k then (i + 1 - k, j + 1 - k, k) else acc.2))
    ([], best)

/-- The `find_longest_match(alo, ahi, blo, bhi)` of `difflib` without junk
(business names are far below the 200-character autojunk threshold, so the
junk sets are empty and the post-processing extension loops are no-ops):
first longest matching block, as `(i, j, size)`. -/
def findLongestMatch (a b : List Char) (alo ahi blo bhi : Nat) : Nat × Nat × Nat :=
  let rows := (List.range ahi).drop alo
  (rows.foldl
    (fun acc i =>
      let js := match a.get? i with | some c => positionsOf b c | none => []
      flmRow blo bhi i js acc.1 acc.2)
    (([] : List (Nat × Nat)), (alo, blo, 0))).2

/-- Total size of the matching blocks of `SequenceMatcher`, by the recursive
divide of `get_matching_blocks`; `fuel` bounds the recursion depth. -/
def matchTotalF (a b : List Char) : Nat → Nat → Nat → Nat → Nat → Nat
  | 0, _, _, _, _ => 0
  | fuel + 1, alo, ahi, blo, bhi =>
    let (i, j, k) := findLongestMatch a b alo ahi blo bhi
    if k = 0 then 0
    else k + matchTotalF a b fuel alo i blo j + matchTotalF a b fuel (i + k) ahi (j + k) bhi

/-- Embedding of `difflib.SequenceMatcher(None, x, y).ratio()`:
`2.0 * M / T` where `M` is the total size of the matching blocks and `T`
the sum of the lengths (`1.0` when both are empty). -/
def simRatio (x y : String) : ℚ :=
  let a := x.data
  let b := y.data
  let t := a.length + b.length
  if t = 0 then 1
  else 2 * (matchTotalF a b (t + 1) 0 a.length 0 b.length : ℚ) / (t : ℚ)

/-- Conversion of degrees to radians, `math.radians`. -/
noncomputable def radiansR (x : ℝ) : ℝ := x * Real.pi / 180

/-- Two-argument arctangent `math.atan2(y, x)` (the C library function),
with the standard piecewise definition. -/
noncomputable def atan2 (y x : ℝ) : ℝ :=
  if 0 < x then Real.arctan (y / x)
  else if x < 0 then
    (if 0 ≤ y then Real.arctan (y / x) + Real.pi else Real.arctan (y / x) - Real.pi)
  else if 0 < y then Real.pi / 2
  else if y < 0 then -(Real.pi / 2)
  else 0

/-- Embedding of `CityChainDetector._calculate_distance` (the identical
local `_calculate_distance` of `_add_distance_to_businesses` in
`chain_brand_node.py` is the same formula): haversine distance in
kilometers with Earth radius 6371. -/
noncomputable def calculate_distance (lat1 lon1 lat2 lon2 : ℝ) : ℝ :=
  let R : ℝ := 6371
  let lat1_rad := radiansR lat1
  let lat2_rad := radiansR lat2
  let delta_lat := radiansR (lat2 - lat1)
  let delta_lon := radiansR (lon2 - lon1)
  let a := Real.sin (delta_lat / 2) ^ 2 +
    Real.cos lat1_rad * Real.cos lat2_rad * Real.sin (delta_lon / 2) ^ 2
  let c := 2 * atan2 (Real.sqrt a) (Real.sqrt (1 - a))
  R * c

/-- Distance test of `_are_different_locations` on two business records:
`_calculate_distance(lat1, lon1, lat2, lon2) >= 0.5` on the `.get(_, 0)`
coordinate values. -/
noncomputable def farHav (b1 b2 : Business) : Bool :=
  @decide
    ((1 / 2 : ℝ) ≤ calculate_distance (b1.latD : ℝ) (b1.lonD : ℝ) (b2.latD : ℝ) (b2.lonD : ℝ))
    (Classical.propDecidable _)

/-- The detector with its concrete collaborators: haversine distance test
and `SequenceMatcher` ratio at the default 0.85 threshold. -/
noncomputable def detect_chains (bs : List Business) : List (String × List Business) :=
  detect_chains_in_results farHav simRatio simThreshold bs

/-- Embedding of `CityChainDetector._build_chain_index`: group the city
rows by normalized name (rows with falsy names skipped) and keep the groups
with at least two locations. -/
def build_chain_index (db : List CityRow) : List (String × List CityRow) :=
  (db.foldl
    (fun acc r =>
      if r.name = "" then acc else addToGroups (normalize_brand_name r.name) r acc) []).filter
    fun p => 2 ≤ p.2.length

/-- Result dictionary of `check_if_chain`; `chain_name` is `None` or the
title-cased normalized name, `locations` is empty in the not-a-chain case
(where the source omits the key). -/
structure ChainInfo where
  is_local_chain : Bool
  chain_name : Option String
  total_locations : Nat
  locations : List CityRow
  description : String
deriving DecidableEq

/-- Python `str.title()` over ASCII: a cased character is uppercased after
a non-cased character and lowercased after a cased one. -/
def pyTitleChars : Bool → List Char → List Char
  | _, [] => []
  | prevAlpha, c :: cs =>
    let isA := ('a' ≤ c && c ≤ 'z') || ('A' ≤ c && c ≤ 'Z')
    (if isA then (if prevAlpha then c.toLower else c.toUpper) else c) ::
      pyTitleChars isA cs

/-- Python `str.title()` on strings. -/
def pyTitle (s : String) : String := String.mk (pyTitleChars false s.data)

/-- Embedding of `CityChainDetector.check_if_chain` over a backing city
database (the index is rebuilt per lookup; it is a pure function of the
database, matching the cached `chain_cache` of the source). -/
def check_if_chain (db : List CityRow) (business_name : String) : ChainInfo :=
  match lookupAssoc (build_chain_index db) (normalize_brand_name business_name) with
  | some locs =>
    ⟨true, some (pyTitle (normalize_brand_name business_name)), locs.length, locs,
      "Local chain with " ++ toString locs.length ++ " branches across the city"⟩
  | none => ⟨false, none, 1, [], "Independent single-location business"⟩

/-- Brand classification dictionary produced by `LLMBrandDetector`. -/
structure BrandInfo where
  is_branded : Bool
  brand_name : String
  confidence : ℚ
  reasoning : String
  classification_type : String
deriving DecidableEq

/-- JSON values, for the parsed LLM responses (`json.loads` output). -/
inductive Json where
  | null : Json
  | bool (b : Bool) : Json
  | num (q : ℚ) : Json
  | str (s : String) : Json
  | arr (elems : List Json) : Json
  | obj (fields : List (String × Json)) : Json

/-- Dictionary `.get(k, d)` on a parsed JSON object; `json.loads` keeps the
last occurrence of a duplicate key. -/
def jGet (fields : List (String × Json)) (k : String) (d : Json) : Json :=
  match lookupAssoc fields.reverse k with
  | some v => v
  | none => d

/-- Python `bool()` truthiness of a JSON value. -/
def pyTruth : Json → Bool
  | .null => false
  | .bool b => b
  | .num q => q != 0
  | .str s => s != ""
  | .arr l => !l.isEmpty
  | .obj l => !l.isEmpty

/-- Python `str()` of a JSON value.  The claims only depend on the string
case; the renderings of containers are placeholders. -/
def pyStr : Json → String
  | .str s => s
  | .bool true => "True"
  | .bool false => "False"
  | .null => "None"
  | .num q => toString q
  | .arr _ => "<list>"
  | .obj _ => "<dict>"

/-- Python `float()` coercion of a JSON value: numbers and booleans
convert, `None` and containers raise.  Numeric strings, which Python would
convert, are modelled as failing; no claim depends on that case. -/
def pyFloat : Json → Option ℚ
  | .num q => some q
  | .bool b => some (if b then 1 else 0)
  | _ => none

/-- Field extraction of `_parse_brand_response` from a parsed JSON value:
requires a JSON object and a convertible `confidence`; every failure mode
is the `except` branch of the source. -/
def extractBrand : Json → Option BrandInfo
  | .obj fields =>
    match pyFloat (jGet fields ("confidence") (.num (1 / 2))) with
    | some conf =>
      some ⟨pyTruth (jGet fields ("is_branded") (.bool false)),
        pyStr (jGet fields ("brand_name") (.str "")), conf,
        pyStr (jGet fields ("reasoning") (.str "No reasoning provided")),
        pyStr (jGet fields ("classification_type") (.str "local"))⟩
    | none => none
  | _ => none

/-- Code-fence stripping of `_parse_brand_response`. -/
def stripFences (s : String) : String :=
  let s1 := if s.startsWith ("```json") then s.drop 7 else s
  if s1.endsWith ("```") then s1.dropRight 3 else s1

/-- The cleaned response text handed to `json.loads`. -/
def clean_response (s : String) : String := stripFences (String.mk (pyStrip s.data))

/-- Fallback dictionary of the `except` branch of `_parse_brand_response`. -/
def parseDefault : BrandInfo := ⟨false, "", 1 / 2, "Error in parsing response", "local"⟩

/-- Embedding of `LLMBrandDetector._parse_brand_response`, parameterized by
`jsonLoads`, the `json.loads` collaborator; a `none` result models a raised
`JSONDecodeError`. -/
def parse_brand_response (jsonLoads : String → Option Json) (response : String) : BrandInfo :=
  match (jsonLoads (clean_response response)).bind extractBrand with
  | some bi => bi
  | none => parseDefault

/-- Fallback dictionary of the `except` branch of `identify_brand_status`. -/
def errorFallback (business_name : String) : BrandInfo :=
  ⟨false, business_name, 1 / 2, "Fallback classification due to error", "local"⟩

/-- Embedding of `LLMBrandDetector.identify_brand_status`: `call` is the
outcome of the Perplexity request (`Except.error` models any raised
exception, e.g. a timeout); the prompt construction cannot fail and is
irrelevant to the result. -/
def identify_brand_status (call : Except Unit String) (jsonLoads : String → Option Json)
    (business_name : String) : BrandInfo :=
  match call with
  | .error _ => errorFallback business_name
  | .ok resp => parse_brand_response jsonLoads resp

/-- Business record together with the classification fields added by
`batch_identify_brands` (`business.copy()` plus `update(brand_info)`; the
classification keys are disjoint from the record keys). -/
structure Classified where
  business : Business
  brand : BrandInfo
deriving DecidableEq

/-- Embedding of `LLMBrandDetector.batch_identify_brands`, parameterized by
the per-business classifier `classify name business_type area_name` (the
composition of `identify_brand_status` with the per-call oracles). -/
def batch_identify_brands (classify : String → String → String → BrandInfo)
    (business_type : String) (businesses : List Business) : List Classified :=
  businesses.map fun b => ⟨b, classify b.name business_type b.area_name⟩

/-- Entry of `result_chain_info` attached by the enrichment loop. -/
structure ResultChainInfo where
  chain_name : String
  total_result_locations : Nat
deriving DecidableEq

/-- Coordinate match of the enrichment loop:
`abs(loc.get(lat,0) - business.get(lat,0)) < 0.0001` on both axes. -/
def coordMatch (b loc : Business) : Bool :=
  |loc.latD - b.latD| < 1 / 10000 && |loc.lonD - b.lonD| < 1 / 10000

/-- First detected result chain (in dictionary order) containing a location
that coordinate-matches the business, as in the enrichment loop. -/
def findResultChain (chains : List (String × List Business)) (b : Business) :
    Option ResultChainInfo :=
  match chains with
  | [] => none
  | (nm, locs) :: rest =>
    if locs.any (coordMatch b) then some ⟨nm, locs.length⟩
    else findResultChain rest b

/-- Enriched record produced by `enrich_businesses_with_chain_data`; the
original record and the classification fields are carried unchanged. -/
structure Enriched where
  business : Business
  brand : BrandInfo
  city_chain_info : ChainInfo
  result_chain_info : Option ResultChainInfo
  is_local_chain : Bool
  is_chain : Bool
  local_chain_name : String
  total_locations : Nat
  brand_classification_confidence : ℚ
  brand_classification_reasoning : String
deriving DecidableEq

/-- The `chain_info.get(chain_name) or (result_chain_info.get(chain_name)
if result_chain_info else brand_name)` expression: Python `or` skips `None`
and the empty string. -/
def pyOrName (cityName : Option String) (ri : Option ResultChainInfo)
    (brand_name : String) : String :=
  let second := match ri with | some r => r.chain_name | none => brand_name
  match cityName with
  | some s => if s = "" then second else s
  | none => second

/-- Per-record body of the enrichment loop of
`enrich_businesses_with_chain_data`. -/
def enrichOne (db : List CityRow) (rc : List (String × List Business))
    (c : Classified) : Enriched :=
  let ci := check_if_chain db c.business.name
  let ri := findResultChain rc c.business
  if ci.is_local_chain || ri.isSome || c.brand.is_branded then
    ⟨c.business, c.brand, ci, ri, true, true,
      pyOrName ci.chain_name ri c.brand.brand_name,
      ci.total_locations + (match ri with | some r => r.total_result_locations | none => 1),
      c.brand.confidence, c.brand.reasoning⟩
  else
    ⟨c.business, c.brand, ci, ri, false, false, c.business.name, 1,
      c.brand.confidence, c.brand.reasoning⟩

/-- Embedding of `CityChainDetector.enrich_businesses_with_chain_data`,
parameterized like the detector and the batch classifier. -/
def enrich_businesses_with_chain_data (classify : String → String → String → BrandInfo)
    (far : Business → Business → Bool) (sim : String → String → ℚ)
    (db : List CityRow) (businesses : List Business) (business_type : String) :
    List Enriched :=
  let rc := detect_chains_in_results far sim simThreshold businesses
  (batch_identify_brands classify business_type businesses).map (enrichOne db rc)

/-! Concrete inputs of the specification scenarios. -/

/-- Rows of the database contributing to the index group of key `k`. -/
def cityKeyRows (db : List CityRow) (k : String) : List CityRow :=
  db.filter fun r => r.name != "" && (normalize_brand_name r.name == k)

/-- The grouping fold of `_build_chain_index`, over a generic accumulator. -/
def cityGroupFold (db : List CityRow) (acc : List (String × List CityRow)) :
    List (String × List CityRow) :=
  db.foldl
    (fun acc r =>
      if r.name = "" then acc else addToGroups (normalize_brand_name r.name) r acc) acc

/-- Record with both coordinates missing, for the witness scenarios. -/
def noCoord1 : Business := ⟨"Cafe A", none, none, ""⟩

/-- Record with explicit zero coordinates, for the witness scenarios. -/
def noCoord2 : Business := ⟨"Cafe B", some 0, some 0, ""⟩

/-- City row of the witness scenario. -/
def rowZ1 : CityRow := ⟨"Cafe Z", some 1, some 2, "addr one", "cafe"⟩

/-- Second city row of the witness scenario, same brand after
normalization. -/
def rowZ2 : CityRow := ⟨"Cafe Z - Sector 5", some 3, some 4, "addr two", "cafe"⟩

/-- Classification oracle answering branded with the business name, a
possible outcome of the LLM collaborator. -/
def brandedClassify : String → String → String → BrandInfo :=
  fun n _ _ => ⟨true, n, 9 / 10, "confirmed chain", "branded"⟩


/-- The possessive name of the duplicate-listing scenario. -/
def joeName : String := "Joe" ++ String.mk [apos] ++ "s Diner"

/-- First duplicate listing, at (30.74, 76.78). -/
def joe1 : Business := ⟨joeName, some (3074 / 100), some (7678 / 100), ""⟩

/-- Second duplicate listing, at (30.7401, 76.7801), about 14 meters away. -/
def joe2 : Business := ⟨joeName, some (307401 / 10000), some (767801 / 10000), ""⟩

/-- Example name with a dash-separated sector suffix. -/
def sharmaSector : String := "Sharma Cafe - Sector 12"

/-- Example name with a comma-separated phase suffix. -/
def sharmaPhase : String := "Sharma Cafe, Phase 7"

/-- Example name with a possessive marker and a branch number. -/
def sharmaHash : String := "Sharma" ++ String.mk [apos] ++ "s Cafe #3"

/-- The bare brand name of the normalization examples. -/
def sharmaPlain : String := "Sharma Cafe"

/-- C7: the normalizer maps the inputs with a dash-sector suffix, a
comma-phase suffix, and a possessive plus branch number all to the same
canonical brand key as the bare name. -/
theorem c7_normalizer_collapses_examples :
    normalize_brand_name sharmaSector = normalize_brand_name sharmaPlain ∧
    normalize_brand_name sharmaPhase = normalize_brand_name sharmaPlain ∧
    normalize_brand_name sharmaHash = normalize_brand_name sharmaPlain := by
  decide

/-- C3 counterexample: normalization is not idempotent.  On the input
consisting of the plain lowercase words a, out, store, let, the pattern
removal for the keyword store (with its trailing optional whitespace)
glues the surrounding words into the keyword outlet, which a second pass
then removes. -/
theorem c3_counterexample_not_idempotent :
    normalize_brand_name (normalize_brand_name ("a out store let")) ≠
      normalize_brand_name ("a out store let") := by
  decide

/-- C1 counterexample: on the two duplicate listings of the possessive
diner name 14 meters apart, `detect_chains_in_results` (with its concrete
haversine distance test and `SequenceMatcher` similarity) does report a
chain containing both records, because records with equal normalized names
are clustered without any distance requirement. -/
theorem c1_counterexample_duplicates_reported :
    detect_chains [joe1, joe2] = [(joeName, [joe1, joe2])] ∧
    detect_chains [joe1, joe2] ≠ [] := by
  constructor
  · rfl
  · decide

/-- C1 amended: records with equal normalized names are clustered with no
pairwise-separation requirement; in particular, on the two duplicate diner
listings one chain with both records is reported, for every distance test
and every similarity function (the separation test gates only the merging
of distinct normalized-name groups). -/
theorem c1_amended_same_key_cluster_ignores_distance
    (far : Business → Business → Bool) (sim : String → String → ℚ) :
    detect_chains_in_results far sim simThreshold [joe1, joe2] =
      [(joeName, [joe1, joe2])] := by
  rfl

/-- C5 counterexample: on a response that is not JSON, the parse fallback
reasoning string is Error in parsing response, and on a raised model call
the fallback reasoning string is capitalized, so neither equals the
lowercase reasoning string stated in the claim. -/
theorem c5_counterexample_fallback_strings :
    identify_brand_status (.ok ("this is not json")) (fun _ => none) ("Cafe X") =
      parseDefault ∧
    parseDefault.reasoning ≠ ("fallback classification due to error") ∧
    (identify_brand_status (.error ()) (fun _ => none) ("Cafe X")).reasoning ≠
      ("fallback classification due to error") := by
  refine ⟨rfl, by decide, by decide⟩

/-- C5 amended: the classifier never raises; on a raised model call it
returns the fallback record with is_branded false, confidence 0.5 and
reasoning Fallback classification due to error, and on a response whose
cleaned text does not yield a usable JSON object it returns the parse
default with is_branded false, confidence 0.5 and reasoning Error in
parsing response. -/
theorem c5_amended_fail_closed (call : Except Unit String)
    (jsonLoads : String → Option Json) (name : String) :
    (∀ e, call = .error e → identify_brand_status call jsonLoads name = errorFallback name) ∧
    (∀ resp, call = .ok resp →
      (jsonLoads (clean_response resp)).bind extractBrand = none →
      identify_brand_status call jsonLoads name = parseDefault) ∧
    (errorFallback name).is_branded = false ∧
    (errorFallback name).confidence = 1 / 2 ∧
    parseDefault.is_branded = false ∧
    parseDefault.confidence = 1 / 2 := by
  refine ⟨?_, ?_, rfl, rfl, rfl, rfl⟩
  · rintro e rfl
    rfl
  · rintro resp rfl hnone
    simp [identify_brand_status, parse_brand_response, hnone]

/-- C5 witness: the amended theorem applied to a concrete raised call. -/
theorem c5_witness :
    identify_brand_status (.error ()) (fun _ => none) ("Cafe X") = errorFallback ("Cafe X") :=
  (c5_amended_fail_closed (.error ()) (fun _ => none) ("Cafe X")).1 () rfl

/-- The haversine intermediate `a` is symmetric in the two endpoints. -/
theorem haversineA_symm (lat1 lon1 lat2 lon2 : ℝ) :
    Real.sin (radiansR (lat2 - lat1) / 2) ^ 2 +
      Real.cos (radiansR lat1) * Real.cos (radiansR lat2) *
        Real.sin (radiansR (lon2 - lon1) / 2) ^ 2 =
    Real.sin (radiansR (lat1 - lat2) / 2) ^ 2 +
      Real.cos (radiansR lat2) * Real.cos (radiansR lat1) *
        Real.sin (radiansR (lon1 - lon2) / 2) ^ 2 := by
  have h1 : radiansR (lat1 - lat2) / 2 = -(radiansR (lat2 - lat1) / 2) := by
    simp [radiansR]; ring
  have h2 : radiansR (lon1 - lon2) / 2 = -(radiansR (lon2 - lon1) / 2) := by
    simp [radiansR]; ring
  rw [h1, h2, Real.sin_neg, Real.sin_neg, neg_sq, neg_sq, mul_comm (Real.cos (radiansR lat2))]

/-- C8: the haversine distance from a point to itself is exactly zero, and
the function is symmetric in its two endpoints. -/
theorem c8_distance_zero_and_symmetric :
    (∀ lat lon : ℝ, calculate_distance lat lon lat lon = 0) ∧
    (∀ lat1 lon1 lat2 lon2 : ℝ,
      calculate_distance lat1 lon1 lat2 lon2 = calculate_distance lat2 lon2 lat1 lon1) := by
  constructor
  · intro lat lon
    simp [calculate_distance, radiansR, atan2, Real.arctan_zero]
  · intro lat1 lon1 lat2 lon2
    simp only [calculate_distance]
    rw [haversineA_symm]

/-- Existential reading of `_are_different_locations`: the test succeeds
exactly when some cross pair has all coordinates present and nonzero and
passes the distance test. -/
theorem are_different_locations_iff (far : Business → Business → Bool)
    (g1 g2 : List Business) :
    are_different_locations far g1 g2 = true ↔
      ∃ b1 ∈ g1, ∃ b2 ∈ g2, coordsPresent b1 b2 = true ∧ far b1 b2 = true := by
  simp [are_different_locations]

/-- C6: with the concrete haversine separation test, a candidate group is
never merged into the current cluster when every coordinate-complete cross
pair is strictly closer than 0.5 km, no matter the similarity function; and
conversely any merge that does change the cluster requires name similarity
at least the 0.85 threshold together with a coordinate-complete cross pair
at distance at least 0.5 km. -/
theorem c6_merge_requires_separation_and_similarity :
    (∀ (sim : String → String → ℚ) (key : String) (st : InnerSt)
        (p : String × List Business),
      (∀ b1 ∈ st.cluster, ∀ b2 ∈ p.2, coordsPresent b1 b2 = true →
        calculate_distance (b1.latD : ℝ) (b1.lonD : ℝ) (b2.latD : ℝ) (b2.lonD : ℝ) < 1 / 2) →
      (innerStep farHav sim simThreshold key st p).cluster = st.cluster) ∧
    (∀ (sim : String → String → ℚ) (key : String) (st : InnerSt)
        (p : String × List Business),
      (innerStep farHav sim simThreshold key st p).cluster ≠ st.cluster →
      simThreshold ≤ sim key p.1 ∧
        ∃ b1 ∈ st.cluster, ∃ b2 ∈ p.2, coordsPresent b1 b2 = true ∧
          (1 / 2 : ℝ) ≤ calculate_distance (b1.latD : ℝ) (b1.lonD : ℝ) (b2.latD : ℝ) (b2.lonD : ℝ)) := by
  constructor
  · intro sim key st p h
    unfold innerStep
    split
    · rfl
    · split
      · split
        · rename_i hdiff
          rw [are_different_locations_iff] at hdiff
          obtain ⟨b1, hb1, b2, hb2, hcp, hfar⟩ := hdiff
          have hle : (1 / 2 : ℝ) ≤ calculate_distance (b1.latD : ℝ) (b1.lonD : ℝ) (b2.latD : ℝ) (b2.lonD : ℝ) :=
            of_decide_eq_true hfar
          exact absurd hle (not_le.mpr (h b1 hb1 b2 hb2 hcp))
        · rfl
      · rfl
  · intro sim key st p h
    unfold innerStep at h
    by_cases h1 : (p.1 = key || st.processed.contains p.1) = true
    · rw [if_pos h1] at h
      exact absurd rfl h
    · rw [if_neg h1] at h
      by_cases h2 : simThreshold ≤ sim key p.1
      · rw [if_pos h2] at h
        refine ⟨h2, ?_⟩
        by_cases h3 : are_different_locations farHav st.cluster p.2 = true
        · rw [are_different_locations_iff] at h3
          obtain ⟨b1, hb1, b2, hb2, hcp, hfar⟩ := h3
          exact ⟨b1, hb1, b2, hb2, hcp, of_decide_eq_true hfar⟩
        · rw [if_neg h3] at h
          exact absurd rfl h
      · rw [if_neg h2] at h
        exact absurd rfl h



/-- C6 witness: the no-merge direction applied to a concrete cluster and
candidate group whose records lack coordinates, so the closeness hypothesis
is vacuous. -/
theorem c6_witness :
    (innerStep farHav simRatio simThreshold ("cafe a")
      ⟨[noCoord1], [noCoord1.name], []⟩ (("cafe b"), [noCoord2])).cluster =
      [noCoord1] := by
  refine (c6_merge_requires_separation_and_similarity).1 simRatio ("cafe a")
    ⟨[noCoord1], [noCoord1.name], []⟩ (("cafe b"), [noCoord2]) ?_
  intro b1 hb1 b2 hb2 hcp
  simp only [List.mem_singleton] at hb1 hb2
  subst hb1; subst hb2
  exact absurd hcp (by decide)

/-- C10: a cross pair with any missing or zero coordinate is skipped by the
separation test regardless of the distance function; a successful test
requires a record with both coordinates present and nonzero in each group;
and a candidate group whose records all have a missing or zero coordinate
is never merged, for every distance function and every similarity
function. -/
theorem c10_zero_or_missing_coordinates_skipped :
    (∀ (far : Business → Business → Bool) (b1 b2 : Business),
      (b1.latD = 0 ∨ b1.lonD = 0 ∨ b2.latD = 0 ∨ b2.lonD = 0) →
      (coordsPresent b1 b2 && far b1 b2) = false) ∧
    (∀ (far : Business → Business → Bool) (g1 g2 : List Business),
      are_different_locations far g1 g2 = true →
      (∃ b1 ∈ g1, b1.latD ≠ 0 ∧ b1.lonD ≠ 0) ∧
        (∃ b2 ∈ g2, b2.latD ≠ 0 ∧ b2.lonD ≠ 0)) ∧
    (∀ (far : Business → Business → Bool) (sim : String → String → ℚ) (θ : ℚ)
        (key : String) (st : InnerSt) (p : String × List Business),
      (∀ b ∈ p.2, b.latD = 0 ∨ b.lonD = 0) →
      (innerStep far sim θ key st p).cluster = st.cluster) := by
  refine ⟨?_, ?_, ?_⟩
  · intro far b1 b2 h
    have hcp : coordsPresent b1 b2 = false := by
      simp only [coordsPresent]
      rcases h with h | h | h | h <;> simp [h]
    simp [hcp]
  · intro far g1 g2 h
    rw [are_different_locations_iff] at h
    obtain ⟨b1, hb1, b2, hb2, hcp, -⟩ := h
    simp only [coordsPresent, Bool.and_eq_true, bne_iff_ne, ne_eq] at hcp
    exact ⟨⟨b1, hb1, hcp.1.1.1, hcp.1.1.2⟩, ⟨b2, hb2, hcp.1.2, hcp.2⟩⟩
  · intro far sim θ key st p h
    unfold innerStep
    split
    · rfl
    · split
      · split
        · rename_i hdiff
          rw [are_different_locations_iff] at hdiff
          obtain ⟨b1, -, b2, hb2, hcp, -⟩ := hdiff
          simp only [coordsPresent, Bool.and_eq_true, bne_iff_ne, ne_eq] at hcp
          rcases h b2 hb2 with h0 | h0
          · exact absurd h0 hcp.1.2
          · exact absurd h0 hcp.2
        · rfl
      · rfl

/-- C10 witness: the never-merged direction applied to a concrete candidate
group consisting of a record with zero coordinates. -/
theorem c10_witness :
    (innerStep farHav simRatio simThreshold ("cafe a")
      ⟨[joe1], [joe1.name], []⟩ (("cafe b"), [noCoord2])).cluster = [joe1] := by
  refine (c10_zero_or_missing_coordinates_skipped).2.2 farHav simRatio simThreshold
    ("cafe a") ⟨[joe1], [joe1.name], []⟩ (("cafe b"), [noCoord2]) ?_
  intro b hb
  simp only [List.mem_singleton] at hb
  subst hb
  left
  decide

/-! Lemmas on the grouping association lists used by the city index. -/

/-- Lookup through one `defaultdict(list)` append. -/
theorem lookupAssoc_addToGroups {α : Type} (key : String) (x : α)
    (l : List (String × List α)) (k : String) :
    lookupAssoc (addToGroups key x l) k =
      if k = key then some (((lookupAssoc l k).getD []) ++ [x]) else lookupAssoc l k := by
  induction l with
  | nil =>
    by_cases h : k = key
    · subst h
      simp [addToGroups, lookupAssoc]
    · simp [addToGroups, lookupAssoc, h, Ne.symm h]
  | cons q rest ih =>
    obtain ⟨k1, g⟩ := q
    by_cases h1 : k1 = key
    · subst h1
      by_cases h2 : k1 = k
      · subst h2
        simp [addToGroups, lookupAssoc]
      · simp [addToGroups, lookupAssoc, h2, Ne.symm h2]
    · by_cases h2 : k1 = k
      · subst h2
        simp [addToGroups, lookupAssoc, h1, Ne.symm h1]
      · simp [addToGroups, lookupAssoc, h1, h2, ih]



/-- Lookup in the grouping fold: the accumulated group extended by exactly
the contributing rows, in database order. -/
theorem lookup_cityGroupFold (db : List CityRow) (acc : List (String × List CityRow))
    (k : String) :
    lookupAssoc (cityGroupFold db acc) k =
      match lookupAssoc acc k with
      | some v => some (v ++ cityKeyRows db k)
      | none => if cityKeyRows db k = [] then none else some (cityKeyRows db k) := by
  induction db generalizing acc with
  | nil =>
    simp only [cityGroupFold, List.foldl_nil, cityKeyRows, List.filter_nil]
    cases lookupAssoc acc k <;> simp
  | cons r rest ih =>
    by_cases hname : r.name = ""
    · have hrow : (r.name != "" && (normalize_brand_name r.name == k)) = false := by
        simp [hname]
      simp only [cityGroupFold, List.foldl_cons, hname, if_pos rfl, cityKeyRows,
        List.filter_cons, hrow]
      exact ih acc
    · by_cases hkey : normalize_brand_name r.name = k
      · have hrow : (r.name != "" && (normalize_brand_name r.name == k)) = true := by
          simp [hname, hkey]
      -- the row contributes to the group of `k`
        simp only [cityGroupFold, List.foldl_cons, if_neg hname]
        have step := ih (addToGroups (normalize_brand_name r.name) r acc)
        rw [cityGroupFold] at step
        rw [step, lookupAssoc_addToGroups, if_pos (Eq.symm hkey)]
        simp only [cityKeyRows, List.filter_cons, hrow]
        cases hacc : lookupAssoc acc k <;>
          simp [cityKeyRows, List.append_assoc]
      · have hrow : (r.name != "" && (normalize_brand_name r.name == k)) = false := by
          simp [hname, hkey]
        simp only [cityGroupFold, List.foldl_cons, if_neg hname]
        have step := ih (addToGroups (normalize_brand_name r.name) r acc)
        rw [cityGroupFold] at step
        rw [step, lookupAssoc_addToGroups, if_neg (fun hh => hkey (Eq.symm hh))]
        simp [cityKeyRows, List.filter_cons, hrow]

/-- Lookup misses exactly the keys outside the association list. -/
theorem lookupAssoc_eq_none_iff {α : Type} (l : List (String × α)) (k : String) :
    lookupAssoc l k = none ↔ k ∉ l.map Prod.fst := by
  induction l with
  | nil => simp [lookupAssoc]
  | cons q rest ih =>
    obtain ⟨k1, v⟩ := q
    simp only [lookupAssoc, List.map_cons, List.mem_cons]
    by_cases h : k1 = k
    · subst h
      simp
    · simp [h, Ne.symm h, ih]

/-- Keys after a `defaultdict(list)` append: unchanged for a present key,
the new key appended otherwise. -/
theorem keys_addToGroups {α : Type} (key : String) (x : α)
    (l : List (String × List α)) :
    (addToGroups key x l).map Prod.fst =
      match lookupAssoc l key with
      | none => l.map Prod.fst ++ [key]
      | some _ => l.map Prod.fst := by
  induction l with
  | nil => simp [addToGroups, lookupAssoc]
  | cons q rest ih =>
    obtain ⟨k1, g⟩ := q
    by_cases h : k1 = key
    · subst h
      simp [addToGroups, lookupAssoc]
    · simp only [addToGroups, if_neg h, List.map_cons, lookupAssoc, ih, h, if_neg h]
      cases hl : lookupAssoc rest key <;> simp [ih, hl]

/-- The keys of the grouping fold stay duplicate-free. -/
theorem nodup_keys_cityGroupFold (db : List CityRow) (acc : List (String × List CityRow))
    (h : (acc.map Prod.fst).Nodup) : ((cityGroupFold db acc).map Prod.fst).Nodup := by
  induction db generalizing acc with
  | nil => simpa [cityGroupFold] using h
  | cons r rest ih =>
    by_cases hname : r.name = ""
    · simp only [cityGroupFold, List.foldl_cons, if_pos hname]
      exact ih acc h
    · simp only [cityGroupFold, List.foldl_cons, if_neg hname]
      refine ih _ ?_
      rw [keys_addToGroups]
      cases hl : lookupAssoc acc (normalize_brand_name r.name) with
      | none =>
        have hmem := (lookupAssoc_eq_none_iff acc (normalize_brand_name r.name)).mp hl
        simp [List.nodup_append, List.disjoint_singleton, h, hmem]
      | some v => exact h

/-- Lookup through a value filter over duplicate-free keys. -/
theorem lookupAssoc_filter_val {α : Type} (p : List α → Bool)
    (l : List (String × List α)) (k : String) (h : (l.map Prod.fst).Nodup) :
    lookupAssoc (l.filter fun q => p q.2) k =
      match lookupAssoc l k with
      | some v => if p v then some v else none
      | none => none := by
  induction l with
  | nil => simp [lookupAssoc]
  | cons q rest ih =>
    obtain ⟨k1, v1⟩ := q
    simp only [List.map_cons, List.nodup_cons] at h
    have ihr := ih h.2
    by_cases hk : k1 = k
    · subst hk
      have hrest : lookupAssoc rest k1 = none :=
        (lookupAssoc_eq_none_iff rest k1).mpr h.1
      by_cases hp : p v1 = true
      · have hf : List.filter (fun q => p q.2) ((k1, v1) :: rest) =
            (k1, v1) :: List.filter (fun q => p q.2) rest := by
          simp [List.filter_cons, hp]
        rw [hf]
        simp [lookupAssoc, hp]
      · have hf : List.filter (fun q => p q.2) ((k1, v1) :: rest) =
            List.filter (fun q => p q.2) rest := by
          simp [List.filter_cons, hp]
        rw [hf, ihr, hrest]
        simp [lookupAssoc, hp]
    · have hcons : lookupAssoc ((k1, v1) :: rest) k = lookupAssoc rest k := by
        simp [lookupAssoc, hk]
      by_cases hp : p v1 = true
      · have hf : List.filter (fun q => p q.2) ((k1, v1) :: rest) =
            (k1, v1) :: List.filter (fun q => p q.2) rest := by
          simp [List.filter_cons, hp]
        rw [hf, hcons]
        simp only [lookupAssoc, if_neg hk]
        exact ihr
      · have hf : List.filter (fun q => p q.2) ((k1, v1) :: rest) =
            List.filter (fun q => p q.2) rest := by
          simp [List.filter_cons, hp]
        rw [hf, hcons]
        exact ihr

/-- C4: the city-index lookup reports a chain exactly when the backing list
contains at least two rows (with a nonempty name) whose normalized name
equals the normalized query, regardless of the rows' locations; and on the
empty backing list every lookup reports not-a-chain. -/
theorem c4_city_index_lookup (db : List CityRow) (name : String) :
    ((check_if_chain db name).is_local_chain = true ↔
      2 ≤ (db.filter fun r => r.name != "" &&
        (normalize_brand_name r.name == normalize_brand_name name)).length) ∧
    (check_if_chain ([] : List CityRow) name).is_local_chain = false := by
  constructor
  · have hidx : build_chain_index db = (cityGroupFold db []).filter
        fun p => 2 ≤ p.2.length := by
      simp [build_chain_index, cityGroupFold]
    have hnodup : ((cityGroupFold db []).map Prod.fst).Nodup :=
      nodup_keys_cityGroupFold db [] (by simp)
    have hfold := lookup_cityGroupFold db [] (normalize_brand_name name)
    have hfilter := lookupAssoc_filter_val (fun v => decide (2 ≤ v.length))
      (cityGroupFold db []) (normalize_brand_name name) hnodup
    simp only [lookupAssoc] at hfold
    unfold check_if_chain
    rw [hidx]
    have hrows : cityKeyRows db (normalize_brand_name name) =
        db.filter fun r => r.name != "" &&
          (normalize_brand_name r.name == normalize_brand_name name) := rfl
    by_cases hempty : cityKeyRows db (normalize_brand_name name) = []
    · rw [if_pos hempty] at hfold
      rw [hfilter, hfold]
      simp only [← hrows, hempty]
      simp
    · rw [if_neg hempty] at hfold
      rw [hfilter, hfold]
      simp only [← hrows]
      by_cases hlen : 2 ≤ (cityKeyRows db (normalize_brand_name name)).length
      · simp [hlen]
      · simp [hlen]
  · rfl



/-- C4 witness: the lookup direction applied to a concrete two-row
database. -/
theorem c4_witness : (check_if_chain [rowZ1, rowZ2] ("Cafe Z")).is_local_chain = true :=
  (c4_city_index_lookup [rowZ1, rowZ2] ("Cafe Z")).1.mpr (by decide)

/-- Per-record fields of the enrichment body: the chain flag is the
disjunction of the three signals, both flags agree, and in the chain case
the name follows the truthiness-or preference and the total adds the
result-cluster size or the constant one. -/
theorem enrichOne_fields (db : List CityRow) (rc : List (String × List Business))
    (c : Classified) :
    (enrichOne db rc c).is_chain =
      ((check_if_chain db c.business.name).is_local_chain ||
        (findResultChain rc c.business).isSome || c.brand.is_branded) ∧
    (enrichOne db rc c).is_local_chain = (enrichOne db rc c).is_chain ∧
    ((enrichOne db rc c).is_chain = true →
      (enrichOne db rc c).local_chain_name =
        pyOrName (check_if_chain db c.business.name).chain_name
          (findResultChain rc c.business) c.brand.brand_name ∧
      (enrichOne db rc c).total_locations =
        (check_if_chain db c.business.name).total_locations +
          (match findResultChain rc c.business with
            | some r => r.total_result_locations
            | none => 1)) ∧
    (enrichOne db rc c).business = c.business ∧
    (enrichOne db rc c).brand = c.brand := by
  unfold enrichOne
  by_cases h : ((check_if_chain db c.business.name).is_local_chain ||
      (findResultChain rc c.business).isSome || c.brand.is_branded) = true
  · rw [if_pos h]
    exact ⟨h.symm, rfl, fun _ => ⟨rfl, rfl⟩, rfl, rfl⟩
  · rw [if_neg h]
    refine ⟨?_, rfl, ?_, rfl, rfl⟩
    · exact (Bool.not_eq_true _).mp h |>.symm
    · intro hfalse
      exact absurd hfalse (by simp)

/-- The enrichment output as a single map over the input records. -/
theorem enrich_eq_map (classify : String → String → String → BrandInfo)
    (far : Business → Business → Bool) (sim : String → String → ℚ)
    (db : List CityRow) (bs : List Business) (btype : String) :
    enrich_businesses_with_chain_data classify far sim db bs btype =
      bs.map fun b =>
        enrichOne db (detect_chains_in_results far sim simThreshold bs)
          ⟨b, classify b.name btype b.area_name⟩ := by
  simp [enrich_businesses_with_chain_data, batch_identify_brands, List.map_map]

/-- C2 amended: for every record of the enrichment output, the chain flag
is true exactly when the city index, the result clustering or the LLM says
so; the chain name is the first truthy value among city-index name,
result-cluster name and LLM brand name; and the reported location total is
the city-index total (one for a non-chain) plus the result-cluster size
when the record is in a cluster, plus one otherwise. -/
theorem c2_enrichment_merge_rule (classify : String → String → String → BrandInfo)
    (far : Business → Business → Bool) (sim : String → String → ℚ)
    (db : List CityRow) (bs : List Business) (btype : String) (i : Nat)
    (h1 : i < (enrich_businesses_with_chain_data classify far sim db bs btype).length)
    (h2 : i < bs.length) :
    ((enrich_businesses_with_chain_data classify far sim db bs btype).get ⟨i, h1⟩).is_chain =
      ((check_if_chain db (bs.get ⟨i, h2⟩).name).is_local_chain ||
        (findResultChain (detect_chains_in_results far sim simThreshold bs)
          (bs.get ⟨i, h2⟩)).isSome ||
        (classify (bs.get ⟨i, h2⟩).name btype (bs.get ⟨i, h2⟩).area_name).is_branded) ∧
    ((enrich_businesses_with_chain_data classify far sim db bs btype).get ⟨i, h1⟩).is_local_chain =
      ((enrich_businesses_with_chain_data classify far sim db bs btype).get ⟨i, h1⟩).is_chain ∧
    (((enrich_businesses_with_chain_data classify far sim db bs btype).get ⟨i, h1⟩).is_chain = true →
      ((enrich_businesses_with_chain_data classify far sim db bs btype).get ⟨i, h1⟩).local_chain_name =
        pyOrName (check_if_chain db (bs.get ⟨i, h2⟩).name).chain_name
          (findResultChain (detect_chains_in_results far sim simThreshold bs) (bs.get ⟨i, h2⟩))
          (classify (bs.get ⟨i, h2⟩).name btype (bs.get ⟨i, h2⟩).area_name).brand_name ∧
      ((enrich_businesses_with_chain_data classify far sim db bs btype).get ⟨i, h1⟩).total_locations =
        (check_if_chain db (bs.get ⟨i, h2⟩).name).total_locations +
          (match findResultChain (detect_chains_in_results far sim simThreshold bs)
              (bs.get ⟨i, h2⟩) with
            | some r => r.total_result_locations
            | none => 1)) := by
  have hmap := enrich_eq_map classify far sim db bs btype
  have hget : (enrich_businesses_with_chain_data classify far sim db bs btype).get ⟨i, h1⟩ =
      enrichOne db (detect_chains_in_results far sim simThreshold bs)
        ⟨bs.get ⟨i, h2⟩, classify (bs.get ⟨i, h2⟩).name btype (bs.get ⟨i, h2⟩).area_name⟩ := by
    have := List.get_of_eq hmap ⟨i, h1⟩
    rw [this, List.get_map]
  rw [hget]
  have hfields := enrichOne_fields db (detect_chains_in_results far sim simThreshold bs)
    ⟨bs.get ⟨i, h2⟩, classify (bs.get ⟨i, h2⟩).name btype (bs.get ⟨i, h2⟩).area_name⟩
  exact ⟨hfields.1, hfields.2.1, hfields.2.2.1⟩


/-- C2 witness: the merge rule applied to a concrete single-record input
under the branded oracle. -/
theorem c2_witness :
    ((enrich_businesses_with_chain_data brandedClassify farHav simRatio [] [joe1]
      ("cafe")).get ⟨0, by decide⟩).is_chain = true := by
  have h := c2_enrichment_merge_rule brandedClassify farHav simRatio [] [joe1]
    ("cafe") 0 (by decide) (by decide)
  rw [h.1]
  decide

/-- C2 counterexample: a record classified as branded by the LLM, in no
result cluster and with an empty city database, is reported with
`total_locations = 2`, whereas the claim's sum of the city-index location
count (1 for a non-chain lookup, 0 members in the index) and the
result-cluster member count (0) is at most 1. -/
theorem c2_counterexample_total_locations :
    ((enrich_businesses_with_chain_data brandedClassify farHav simRatio [] [joe1]
      ("cafe")).map fun e => e.total_locations) = [2] ∧
    (check_if_chain ([] : List CityRow) joeName).total_locations = 1 ∧
    ((enrich_businesses_with_chain_data brandedClassify farHav simRatio [] [joe1]
      ("cafe")).map fun e => e.result_chain_info) = [none] ∧
    (2 : Nat) ≠ 1 + 0 ∧ (2 : Nat) ≠ 0 + 0 := by
  refine ⟨rfl, rfl, rfl, by decide, by decide⟩

/-- C9: enrichment never drops or reorders a record: the output has exactly
one record per input record, in order, the original record fields are
carried unchanged, and the classification fields are exactly those the
classifier produced (including degraded fail-closed defaults). -/
theorem c9_enrichment_preserves_records (classify : String → String → String → BrandInfo)
    (far : Business → Business → Bool) (sim : String → String → ℚ)
    (db : List CityRow) (bs : List Business) (btype : String) :
    (enrich_businesses_with_chain_data classify far sim db bs btype).length = bs.length ∧
    ∀ (i : Nat) (h1 : i < (enrich_businesses_with_chain_data classify far sim db bs btype).length)
      (h2 : i < bs.length),
      ((enrich_businesses_with_chain_data classify far sim db bs btype).get ⟨i, h1⟩).business =
        bs.get ⟨i, h2⟩ ∧
      ((enrich_businesses_with_chain_data classify far sim db bs btype).get ⟨i, h1⟩).brand =
        classify (bs.get ⟨i, h2⟩).name btype (bs.get ⟨i, h2⟩).area_name := by
  have hmap := enrich_eq_map classify far sim db bs btype
  constructor
  · rw [hmap, List.length_map]
  · intro i h1 h2
    have hget : (enrich_businesses_with_chain_data classify far sim db bs btype).get ⟨i, h1⟩ =
        enrichOne db (detect_chains_in_results far sim simThreshold bs)
          ⟨bs.get ⟨i, h2⟩, classify (bs.get ⟨i, h2⟩).name btype (bs.get ⟨i, h2⟩).area_name⟩ := by
      have := List.get_of_eq hmap ⟨i, h1⟩
      rw [this, List.get_map]
    rw [hget]
    have hfields := enrichOne_fields db (detect_chains_in_results far sim simThreshold bs)
      ⟨bs.get ⟨i, h2⟩, classify (bs.get ⟨i, h2⟩).name btype (bs.get ⟨i, h2⟩).area_name⟩
    exact ⟨hfields.2.2.2.1, hfields.2.2.2.2⟩

/-- C9 witness: the preservation theorem applied to a concrete input under
a degraded (error-fallback) classifier. -/
theorem c9_witness :
    ((enrich_businesses_with_chain_data (fun n _ _ => errorFallback n) farHav simRatio []
      [joe1] ("cafe")).get ⟨0, by decide⟩).business = joe1 :=
  ((c9_enrichment_preserves_records (fun n _ _ => errorFallback n) farHav simRatio []
    [joe1] ("cafe")).2 0 (by decide) (by decide)).1

/-! Development for the amended idempotence statement: on phrases of at
most three clean words, every stage of the normalizer is the identity. -/

/-- Lowering fixes lowercase letters and the space. -/
theorem toLower_of_lowerOrSpace (c : Char) (h : lowerOrSpace c = true) :
    c.toLower = c := by
  simp only [lowerOrSpace, isLowerAZ, Bool.or_eq_true, Bool.and_eq_true,
    decide_eq_true_eq] at h
  rcases h with h | h
  · unfold Char.toLower
    rw [if_neg (by omega)]
  · subst h
    decide

/-- Lowercase letters are not regex whitespace. -/
theorem isPySpace_eq_false_of_lower (c : Char) (h : isLowerAZ c = true) :
    isPySpace c = false := by
  simp only [isLowerAZ, Bool.and_eq_true, decide_eq_true_eq] at h
  simp only [isPySpace, Bool.or_eq_false_iff, decide_eq_false_iff_not]
  refine ⟨⟨⟨⟨⟨?_, ?_⟩, ?_⟩, ?_⟩, ?_⟩, ?_⟩
  all_goals intro he
  all_goals subst he
  all_goals exact absurd h (by decide)

/-- Letters and the space are not digits. -/
theorem isDigitCh_eq_false_of_lowerOrSpace (c : Char) (h : lowerOrSpace c = true) :
    isDigitCh c = false := by
  simp only [lowerOrSpace, isLowerAZ, Bool.or_eq_true, Bool.and_eq_true,
    decide_eq_true_eq] at h
  rcases h with h1 | h1
  · simp only [isDigitCh, Bool.and_eq_false_iff, decide_eq_false_iff_not]
    right
    omega
  · subst h1
    decide

/-- A character of the clean alphabet differs from any character outside
it. -/
theorem ne_of_lowerOrSpace {c d : Char} (hc : lowerOrSpace c = true)
    (hd : lowerOrSpace d = false) : c ≠ d := by
  intro h
  subst h
  rw [hc] at hd
  exact Bool.noConfusion hd

/-- The scanner is the identity when the matcher declines every suffix. -/
theorem scanSubF_eq_self (m : List Char → Option Nat) (fuel : Nat) (l : List Char)
    (h : ∀ t, t <:+ l → m t = none) : scanSubF m fuel l = l := by
  induction fuel generalizing l with
  | zero => rfl
  | succ f ih =>
    cases l with
    | nil => rfl
    | cons c cs =>
      have h0 : m (c :: cs) = none := h _ List.suffix_rfl
      simp only [scanSubF, h0]
      exact congrArg _ (ih cs fun t ht => h t (ht.trans (List.suffix_cons c cs)))

/-- Literal replacement is the identity when the first pattern character
does not occur. -/
theorem replaceListF_eq_self (p : Char) (pr : List Char) (fuel : Nat) (l : List Char)
    (h : p ∉ l) : replaceListF (p :: pr) fuel l = l := by
  induction fuel generalizing l with
  | zero => rfl
  | succ f ih =>
    cases l with
    | nil => rfl
    | cons c cs =>
      have hne : (p == c) = false := by
        simp only [List.mem_cons, not_or] at h
        simp [h.1]
      have hpre : (p :: pr).isPrefixOf (c :: cs) = false := by
        simp [List.isPrefixOf, hne]
      simp only [replaceListF, hpre, Bool.false_eq_true, if_neg, ite_false]
      refine congrArg _ (ih cs ?_)
      simp only [List.mem_cons, not_or] at h
      exact h.2

/-- Decomposition of a suffix of an append. -/
theorem suffix_append_cases {l1 l2 t : List Char} (h : t <:+ l1 ++ l2) :
    t <:+ l2 ∨ ∃ u, u <:+ l1 ∧ u ≠ [] ∧ t = u ++ l2 := by
  induction l1 with
  | nil => left; simpa using h
  | cons a l1 ih =>
    rw [List.cons_append] at h
    rcases List.suffix_cons_iff.mp h with heq | hsuf
    · right
      exact ⟨a :: l1, List.suffix_rfl, by simp, by simpa using heq⟩
    · rcases ih hsuf with h2 | ⟨u, hu, hne, heq⟩
      · left; exact h2
      · right; exact ⟨u, hu.trans (List.suffix_cons a l1), hne, heq⟩

/-- Characters of a space join come from the words or are the space. -/
theorem mem_joinSpace {c : Char} : ∀ {ws : List (List Char)},
    c ∈ joinSpace ws → (∃ w ∈ ws, c ∈ w) ∨ c = ' ' := by
  intro ws
  induction ws with
  | nil => intro h; simp [joinSpace] at h
  | cons w ws ih =>
    cases ws with
    | nil =>
      intro h
      simp only [joinSpace] at h
      exact Or.inl ⟨w, by simp, h⟩
    | cons w2 rest =>
      intro h
      simp only [joinSpace, List.mem_append, List.mem_cons] at h
      rcases h with h | h | h
      · exact Or.inl ⟨w, by simp, h⟩
      · exact Or.inr h
      · rcases ih h with ⟨w3, hw3, hc⟩ | hsp
        · exact Or.inl ⟨w3, by simp [hw3], hc⟩
        · exact Or.inr hsp

/-- All characters of a clean phrase lie in the clean alphabet. -/
theorem joinSpace_chars (ws : List (List Char)) (h : ∀ w ∈ ws, cleanWord w = true) :
    ∀ c ∈ joinSpace ws, lowerOrSpace c = true := by
  intro c hc
  rcases mem_joinSpace hc with ⟨w, hw, hcw⟩ | hsp
  · have := h w hw
    simp only [cleanWord, Bool.and_eq_true, List.all_eq_true] at this
    have hlower := this.1.1.2 c hcw
    simp [lowerOrSpace, hlower]
  · subst hsp
    decide

/-- Unpacking of the clean-word condition. -/
theorem cleanWord_parts (w : List Char) (h : cleanWord w = true) :
    w ≠ [] ∧ (∀ c ∈ w, isLowerAZ c = true) ∧
      (∀ kw ∈ optNumKws ++ eolKws, kw.isPrefixOf w = false) ∧
      w ≠ ['b', 'l', 'o', 'c', 'k'] := by
  simp only [cleanWord, kwPrefixFree, Bool.and_eq_true, List.all_eq_true,
    Bool.not_eq_true', bne_iff_ne, ne_eq] at h
  refine ⟨?_, h.1.1.2, ?_, h.2⟩
  · intro h0
    subst h0
    simpa using h.1.1.1
  · intro kw hkw
    exact h.1.2 kw hkw

/-- A run length is zero when the predicate fails on every element. -/
theorem spanLen_eq_zero_of_all (p : Char → Bool) (l : List Char)
    (h : ∀ c ∈ l, p c = false) : spanLen p l = 0 := by
  cases l with
  | nil => rfl
  | cons c cs => simp [spanLen, h c (List.mem_cons_self c cs)]

/-- A run length is zero when the predicate fails on the head. -/
theorem spanLen_eq_zero_of_head (p : Char → Bool) (c : Char) (cs : List Char)
    (h : p c = false) : spanLen p (c :: cs) = 0 := by
  simp [spanLen, h]

/-- A positive run length exposes a head satisfying the predicate. -/
theorem spanLen_pos_head (p : Char → Bool) (t : List Char)
    (h : spanLen p t ≠ 0) : ∃ c cs, t = c :: cs ∧ p c = true := by
  cases t with
  | nil => simp [spanLen] at h
  | cons c cs =>
    by_cases hp : p c = true
    · exact ⟨c, cs, rfl, hp⟩
    · rw [Bool.not_eq_true] at hp
      simp [spanLen, hp] at h

/-- The join of a phrase headed by a nonempty word starts with its first
letter. -/
theorem joinSpace_cons_head (c1 : Char) (w1 : List Char) (ws : List (List Char)) :
    ∃ rest, joinSpace ((c1 :: w1) :: ws) = c1 :: rest := by
  cases ws with
  | nil => exact ⟨w1, rfl⟩
  | cons w2 rest2 => exact ⟨w1 ++ ' ' :: joinSpace (w2 :: rest2), rfl⟩

/-- A suffix of a clean join that starts with a space is a separator
followed by the join of a nonempty suffix of the word list. -/
theorem space_suffix_structure : ∀ (ws : List (List Char)),
    (∀ w ∈ ws, cleanWord w = true) → ∀ (r : List Char),
    (' ' :: r) <:+ joinSpace ws →
    ∃ ws2, ws2 ≠ [] ∧ ws2 <:+ ws ∧ r = joinSpace ws2 := by
  intro ws
  induction ws with
  | nil =>
    intro _ r hsuf
    simp [joinSpace] at hsuf
  | cons w ws ih =>
    intro h r hsuf
    cases ws with
    | nil =>
      exfalso
      simp only [joinSpace] at hsuf
      have hmem : ' ' ∈ w := hsuf.subset (List.mem_cons_self ' ' r)
      have hlow := (cleanWord_parts w (h w (List.mem_cons_self w []))).2.1 ' ' hmem
      exact absurd hlow (by decide)
    | cons w2 rest =>
      have hjs : joinSpace (w :: w2 :: rest) = w ++ ' ' :: joinSpace (w2 :: rest) := rfl
      rw [hjs] at hsuf
      rcases suffix_append_cases hsuf with h2 | ⟨u, hu, hne, heq⟩
      · rcases List.suffix_cons_iff.mp h2 with heq2 | h3
        · have hr : r = joinSpace (w2 :: rest) := by
            injection heq2
          exact ⟨w2 :: rest, by simp, List.suffix_cons w (w2 :: rest), hr⟩
        · rcases ih (fun w3 hw3 => h w3 (List.mem_cons_of_mem _ hw3)) r h3 with
            ⟨ws2, hne2, hsuf2, heq2⟩
          exact ⟨ws2, hne2, hsuf2.trans (List.suffix_cons w (w2 :: rest)), heq2⟩
      · exfalso
        cases u with
        | nil => exact hne rfl
        | cons cu uu =>
          have hcu : ' ' = cu := by
            rw [List.cons_append] at heq
            injection heq
          have hmem : cu ∈ w := hu.subset (List.mem_cons_self cu uu)
          have hlow := (cleanWord_parts w (h w (List.mem_cons_self w _))).2.1 cu hmem
          rw [← hcu] at hlow
          exact absurd hlow (by decide)

/-- A lowercase keyword that is a prefix of a clean join is a prefix of the
first word, or contains the separating space. -/
theorem prefix_joinSpace_cases (kw w : List Char) (ws' : List (List Char))
    (h : kw <+: joinSpace (w :: ws')) : kw <+: w ∨ ' ' ∈ kw := by
  cases ws' with
  | nil => left; exact h
  | cons w2 rest =>
    have hjs : joinSpace (w :: w2 :: rest) = w ++ ' ' :: joinSpace (w2 :: rest) := rfl
    rw [hjs, List.prefix_iff_eq_take, List.take_append_eq_append_take] at h
    by_cases hn : kw.length ≤ w.length
    · left
      rw [List.prefix_iff_eq_take]
      have h0 : kw.length - w.length = 0 := by omega
      rw [h0] at h
      simpa using h
    · right
      have h1 : kw.length - w.length = (kw.length - w.length - 1) + 1 := by omega
      rw [h1, List.take_succ_cons] at h
      rw [h]
      exact List.mem_append_right _ (List.mem_cons_self _ _)

/-- Boolean prefix test versus the prefix relation. -/
theorem isPrefixOf_eq_true_iff (l1 l2 : List Char) :
    l1.isPrefixOf l2 = true ↔ l1 <+: l2 :=
  List.isPrefixOf_iff_prefix

/-- Boolean form of the previous lemma for keyword-free first words. -/
theorem kw_isPrefixOf_joinSpace_eq_false (kw w : List Char) (ws' : List (List Char))
    (halpha : ∀ c ∈ kw, isLowerAZ c = true)
    (hnp : kw.isPrefixOf w = false) :
    kw.isPrefixOf (joinSpace (w :: ws')) = false := by
  by_contra hcon
  rw [Bool.not_eq_false, isPrefixOf_eq_true_iff] at hcon
  rcases prefix_joinSpace_cases kw w ws' hcon with hp | hsp
  · rw [← isPrefixOf_eq_true_iff] at hp
    rw [hp] at hnp
    exact Bool.noConfusion hnp
  · exact absurd (halpha ' ' hsp) (by decide)

/-- A space-headed suffix of a clean join, normalized: the whitespace run
has length one and the tail is the join of a clean nonempty suffix
phrase. -/
theorem suffix_space_start (ws : List (List Char))
    (hclean : ∀ w ∈ ws, cleanWord w = true) (t : List Char)
    (ht : t <:+ joinSpace ws) (hs : spanLen isPySpace t ≠ 0) :
    ∃ w1 ws2', (w1 :: ws2') <:+ ws ∧ cleanWord w1 = true ∧
      t = ' ' :: joinSpace (w1 :: ws2') ∧ spanLen isPySpace t = 1 := by
  obtain ⟨c, cs, heq, hpc⟩ := spanLen_pos_head isPySpace t hs
  subst heq
  have hcls := joinSpace_chars ws hclean c (ht.subset (List.mem_cons_self c cs))
  have hc : c = ' ' := by
    simp only [lowerOrSpace, Bool.or_eq_true, decide_eq_true_eq] at hcls
    rcases hcls with hl | hsp
    · rw [isPySpace_eq_false_of_lower c hl] at hpc
      exact Bool.noConfusion hpc
    · exact hsp
  subst hc
  obtain ⟨ws2, hne, hsuf, heq2⟩ := space_suffix_structure ws hclean cs ht
  cases ws2 with
  | nil => exact absurd rfl hne
  | cons w1 ws2' =>
    have hw1 : cleanWord w1 = true :=
      hclean w1 (hsuf.subset (List.mem_cons_self w1 ws2'))
    obtain ⟨c1, w1', hw1eq⟩ : ∃ c1 w1', w1 = c1 :: w1' := by
      cases w1 with
      | nil =>
        exact absurd rfl (cleanWord_parts [] hw1).1
      | cons c1 w1' => exact ⟨c1, w1', rfl⟩
    have hone : spanLen isPySpace (' ' :: cs) = 1 := by
      obtain ⟨rest, hjoin⟩ := joinSpace_cons_head c1 w1' ws2'
      have hc1 : isLowerAZ c1 = true := by
        refine (cleanWord_parts w1 hw1).2.1 c1 ?_
        rw [hw1eq]
        exact List.mem_cons_self c1 w1'
      have : spanLen isPySpace cs = 0 := by
        rw [heq2, hw1eq, hjoin]
        exact spanLen_eq_zero_of_head isPySpace c1 rest
          (isPySpace_eq_false_of_lower c1 hc1)
      simp [spanLen, this, hpc]
    exact ⟨w1, ws2', hsuf, hw1, by rw [heq2], hone⟩

/-- The dash and comma matchers decline every text over the clean
alphabet. -/
theorem matchSepToEOL_none_chars (sep : Char) (hsep : lowerOrSpace sep = false)
    (t : List Char) (hc : ∀ c ∈ t, lowerOrSpace c = true) :
    matchSepToEOL sep t = none := by
  simp only [matchSepToEOL]
  split
  · rename_i c rest heq
    have hmem : c ∈ t := by
      have h1 : c ∈ List.drop (spanLen isPySpace t) t := by
        rw [heq]
        exact List.mem_cons_self c rest
      exact List.drop_subset _ t h1
    rw [if_neg (ne_of_lowerOrSpace (hc c hmem) hsep)]
  · rfl

/-- The branch-number matcher declines every text over the clean
alphabet. -/
theorem matchHash_none_chars (t : List Char)
    (hc : ∀ c ∈ t, lowerOrSpace c = true) : matchHash t = none := by
  simp only [matchHash]
  split
  · rename_i c rest heq
    have hmem : c ∈ t := by
      have h1 : c ∈ List.drop (spanLen isPySpace t) t := by
        rw [heq]
        exact List.mem_cons_self c rest
      exact List.drop_subset _ t h1
    rw [if_neg (ne_of_lowerOrSpace (hc c hmem) (by decide))]
  · rfl

/-- The parenthetical matcher declines every text over the clean
alphabet. -/
theorem matchParen_none_chars (t : List Char)
    (hc : ∀ c ∈ t, lowerOrSpace c = true) : matchParen t = none := by
  simp only [matchParen]
  split
  · rename_i c rest heq
    have hmem : c ∈ t := by
      have h1 : c ∈ List.drop (spanLen isPySpace t) t := by
        rw [heq]
        exact List.mem_cons_self c rest
      exact List.drop_subset _ t h1
    rw [if_neg (ne_of_lowerOrSpace (hc c hmem) (by decide))]
  · rfl

/-- The sector/phase/scf/sco matchers decline every text over the clean
alphabet, for lack of digits. -/
theorem matchKwNum_none_chars (kw : List Char) (t : List Char)
    (hc : ∀ c ∈ t, lowerOrSpace c = true) : matchKwNum kw t = none := by
  simp only [matchKwNum]
  have hdall : ∀ n, spanLen isDigitCh (t.drop n) = 0 := fun n =>
    spanLen_eq_zero_of_all _ _ fun c hcmem =>
      isDigitCh_eq_false_of_lowerOrSpace c (hc c (List.drop_subset n t hcmem))
  by_cases hs : spanLen isPySpace t = 0
  · simp [hs]
  · rw [if_neg hs]
    by_cases hp : kw.isPrefixOf (t.drop (spanLen isPySpace t)) = true
    · simp [hp, hdall]
    · simp [hp]

/-- The branch/outlet/store/shop matchers decline every suffix of a clean
join whose words avoid the keyword as a prefix. -/
theorem matchKwOptNum_none_clean (kw : List Char)
    (halpha : ∀ c ∈ kw, isLowerAZ c = true)
    (ws : List (List Char)) (hclean : ∀ w ∈ ws, cleanWord w = true)
    (hnp : ∀ w ∈ ws, kw.isPrefixOf w = false)
    (t : List Char) (ht : t <:+ joinSpace ws) : matchKwOptNum kw t = none := by
  simp only [matchKwOptNum]
  by_cases hs : spanLen isPySpace t = 0
  · simp [hs]
  · obtain ⟨w1, ws2', hsuf, hw1, heq, hone⟩ := suffix_space_start ws hclean t ht hs
    rw [if_neg hs]
    have hr : t.drop (spanLen isPySpace t) = joinSpace (w1 :: ws2') := by
      rw [hone, heq]
      rfl
    rw [hr]
    have hw1np : kw.isPrefixOf w1 = false :=
      hnp w1 (hsuf.subset (List.mem_cons_self w1 ws2'))
    simp [kw_isPrefixOf_joinSpace_eq_false kw w1 ws2' halpha hw1np]

/-- The mall/market/plaza/complex matchers decline every suffix of a clean
join whose words avoid the keyword as a prefix. -/
theorem matchKwToEOL_none_clean (kw : List Char)
    (halpha : ∀ c ∈ kw, isLowerAZ c = true)
    (ws : List (List Char)) (hclean : ∀ w ∈ ws, cleanWord w = true)
    (hnp : ∀ w ∈ ws, kw.isPrefixOf w = false)
    (t : List Char) (ht : t <:+ joinSpace ws) : matchKwToEOL kw t = none := by
  simp only [matchKwToEOL]
  by_cases hs : spanLen isPySpace t = 0
  · simp [hs]
  · obtain ⟨w1, ws2', hsuf, hw1, heq, hone⟩ := suffix_space_start ws hclean t ht hs
    rw [if_neg hs]
    have hr : t.drop (spanLen isPySpace t) = joinSpace (w1 :: ws2') := by
      rw [hone, heq]
      rfl
    rw [hr]
    have hw1np : kw.isPrefixOf w1 = false :=
      hnp w1 (hsuf.subset (List.mem_cons_self w1 ws2'))
    simp [kw_isPrefixOf_joinSpace_eq_false kw w1 ws2' halpha hw1np]

/-- The block matcher declines every suffix of a clean join: a word equal to
block is excluded, and a longer block-prefixed word leaves no whitespace
after the keyword. -/
theorem matchBlock_none_clean (ws : List (List Char))
    (hclean : ∀ w ∈ ws, cleanWord w = true)
    (t : List Char) (ht : t <:+ joinSpace ws) : matchBlock t = none := by
  simp only [matchBlock]
  by_cases hs : spanLen isPySpace t = 0
  · simp [hs]
  · obtain ⟨w1, ws2', hsuf, hw1, heq, hone⟩ := suffix_space_start ws hclean t ht hs
    rw [if_neg hs]
    have hr : t.drop (spanLen isPySpace t) = joinSpace (w1 :: ws2') := by
      rw [hone, heq]
      rfl
    rw [hr]
    by_cases hp : (['b', 'l', 'o', 'c', 'k']).isPrefixOf (joinSpace (w1 :: ws2')) = true
    · rw [isPrefixOf_eq_true_iff] at hp
      rcases prefix_joinSpace_cases _ w1 ws2' hp with hpw | hspkw
      · obtain ⟨w1t, hw1eq⟩ := hpw
        have hne2 : w1t ≠ [] := by
          intro h0
          subst h0
          rw [List.append_nil] at hw1eq
          exact (cleanWord_parts w1 hw1).2.2.2 hw1eq.symm
        obtain ⟨ct, ut, hw1t⟩ : ∃ ct ut, w1t = ct :: ut := by
          cases w1t with
          | nil => exact absurd rfl hne2
          | cons ct ut => exact ⟨ct, ut, rfl⟩
        have hct : isLowerAZ ct = true := by
          refine (cleanWord_parts w1 hw1).2.1 ct ?_
          rw [← hw1eq, hw1t]
          exact List.mem_append_right _ (List.mem_cons_self ct ut)
        have hs2 : spanLen isPySpace ((joinSpace (w1 :: ws2')).drop 5) = 0 := by
          cases ws2' with
          | nil =>
            have hj : joinSpace [w1] = ['b', 'l', 'o', 'c', 'k'] ++ w1t := by
              simp [joinSpace, ← hw1eq]
            rw [hj, List.drop_left' (by rfl), hw1t]
            exact spanLen_eq_zero_of_head _ ct ut (isPySpace_eq_false_of_lower ct hct)
          | cons w2 rest2 =>
            have hj : joinSpace (w1 :: w2 :: rest2) =
                ['b', 'l', 'o', 'c', 'k'] ++ (w1t ++ ' ' :: joinSpace (w2 :: rest2)) := by
              show w1 ++ ' ' :: joinSpace (w2 :: rest2) = _
              rw [← hw1eq, List.append_assoc]
            rw [hj, List.drop_left' (by rfl), hw1t, List.cons_append]
            exact spanLen_eq_zero_of_head _ ct _ (isPySpace_eq_false_of_lower ct hct)
        rw [← isPrefixOf_eq_true_iff] at hp
        simp [hp, hs2]
      · exact absurd hspkw (by decide)
    · simp [hp]

/-- Lowering is the identity on the clean alphabet. -/
theorem map_toLower_eq_self (l : List Char) (h : ∀ c ∈ l, lowerOrSpace c = true) :
    l.map Char.toLower = l := by
  induction l with
  | nil => rfl
  | cons c cs ih =>
    rw [List.map_cons, toLower_of_lowerOrSpace c (h c (List.mem_cons_self c cs)),
      ih fun d hd => h d (List.mem_cons_of_mem c hd)]

/-- The apostrophe never occurs in the clean alphabet. -/
theorem apos_not_mem (l : List Char) (h : ∀ c ∈ l, lowerOrSpace c = true) :
    apos ∉ l :=
  fun hmem => absurd (h apos hmem) (by decide)

/-- Taking while a universally satisfied predicate is the identity. -/
theorem takeWhile_eq_self_of_all (p : Char → Bool) (l : List Char)
    (h : ∀ c ∈ l, p c = true) : l.takeWhile p = l := by
  induction l with
  | nil => rfl
  | cons c cs ih =>
    rw [List.takeWhile_cons, if_pos (h c (List.mem_cons_self c cs))]
    rw [ih fun d hd => h d (List.mem_cons_of_mem c hd)]

/-- Splitting a clean join recovers the words, given sufficient fuel. -/
theorem pySplitF_joinSpace : ∀ (ws : List (List Char)) (fuel : Nat),
    (∀ w ∈ ws, cleanWord w = true) → (joinSpace ws).length ≤ fuel →
    pySplitF fuel (joinSpace ws) = ws := by
  intro ws
  induction ws with
  | nil =>
    intro fuel _ _
    cases fuel <;> rfl
  | cons w ws ih =>
    intro fuel hclean hlen
    have hw : cleanWord w = true := hclean w (List.mem_cons_self w ws)
    obtain ⟨c, w', hweq⟩ : ∃ c w', w = c :: w' := by
      cases w with
      | nil => exact absurd rfl (cleanWord_parts [] hw).1
      | cons c w' => exact ⟨c, w', rfl⟩
    have hlow : ∀ d ∈ w, isLowerAZ d = true := (cleanWord_parts w hw).2.1
    have hcsp : isPySpace c = false :=
      isPySpace_eq_false_of_lower c (hlow c (hweq ▸ List.mem_cons_self c w'))
    cases ws with
    | nil =>
      have hj : joinSpace [w] = w := rfl
      rw [hj, hweq] at hlen ⊢
      cases fuel with
      | zero => simp at hlen
      | succ f =>
        have htw : List.takeWhile (fun x => !isPySpace x) (c :: w') = c :: w' := by
          refine takeWhile_eq_self_of_all _ _ fun d hd => ?_
          rw [isPySpace_eq_false_of_lower d (hlow d (hweq ▸ hd))]
          rfl
        rw [pySplitF, if_neg (by rw [hcsp]; exact Bool.noConfusion)]
        simp only [htw, List.drop_length]
        cases f <;> rfl
    | cons w2 rest =>
      have hj : joinSpace (w :: w2 :: rest) = w ++ ' ' :: joinSpace (w2 :: rest) := rfl
      rw [hj] at hlen ⊢
      have hlenw : 1 ≤ w.length := by
        rw [hweq]
        simp
      have hlen2 : w.length + (joinSpace (w2 :: rest)).length + 1 ≤ fuel := by
        have h0 := hlen
        simp only [List.length_append, List.length_cons] at h0
        omega
      cases fuel with
      | zero => omega
      | succ f =>
        rw [hweq, List.cons_append, pySplitF,
          if_neg (by rw [hcsp]; exact Bool.noConfusion)]
        have htw : List.takeWhile (fun x => !isPySpace x)
            (c :: (w' ++ ' ' :: joinSpace (w2 :: rest))) =
            (c :: w') ++ List.takeWhile (fun x => !isPySpace x)
              (' ' :: joinSpace (w2 :: rest)) := by
          rw [show c :: (w' ++ ' ' :: joinSpace (w2 :: rest)) =
            (c :: w') ++ (' ' :: joinSpace (w2 :: rest)) from rfl]
          refine List.takeWhile_append_of_pos fun d hd => ?_
          rw [isPySpace_eq_false_of_lower d (hlow d (hweq ▸ hd))]
          rfl
        have htsp : List.takeWhile (fun x => !isPySpace x)
            (' ' :: joinSpace (w2 :: rest)) = [] := by
          rw [List.takeWhile_cons]
          simp [isPySpace]
        have hdrop : List.drop (c :: w').length
            (c :: (w' ++ ' ' :: joinSpace (w2 :: rest))) =
            ' ' :: joinSpace (w2 :: rest) := by
          rw [show c :: (w' ++ ' ' :: joinSpace (w2 :: rest)) =
            (c :: w') ++ (' ' :: joinSpace (w2 :: rest)) from rfl]
          exact List.drop_left _ _
        simp only [htw, htsp, List.append_nil]
        rw [hdrop, ← hweq]
        have hf : ∃ f2, f = f2 + 1 := by
          refine ⟨f - 1, ?_⟩
          omega
        obtain ⟨f2, rfl⟩ := hf
        rw [pySplitF]
        simp only [show isPySpace ' ' = true from by decide, if_true]
        rw [ih f2 (fun w3 hw3 => hclean w3 (List.mem_cons_of_mem w hw3)) (by omega)]

/-- The last character of a clean join is a lowercase letter. -/
theorem joinSpace_getLast_lower : ∀ (ws : List (List Char)), ws ≠ [] →
    (∀ w ∈ ws, cleanWord w = true) →
    ∃ c, (joinSpace ws).getLast? = some c ∧ isLowerAZ c = true := by
  intro ws
  induction ws with
  | nil => intro h _; exact absurd rfl h
  | cons w ws ih =>
    intro _ hclean
    have hw : cleanWord w = true := hclean w (List.mem_cons_self w ws)
    cases ws with
    | nil =>
      have hne : w ≠ [] := (cleanWord_parts w hw).1
      refine ⟨w.getLast hne, ?_, ?_⟩
      · exact List.getLast?_eq_getLast w hne
      · exact (cleanWord_parts w hw).2.1 _ (List.getLast_mem hne)
    | cons w2 rest =>
      obtain ⟨c, hc, hcl⟩ := ih (by simp) fun w3 hw3 => hclean w3 (List.mem_cons_of_mem w hw3)
      have hne2 : joinSpace (w2 :: rest) ≠ [] := by
        intro h0
        rw [h0] at hc
        exact Option.noConfusion hc
      refine ⟨c, ?_, hcl⟩
      have hj : joinSpace (w :: w2 :: rest) = w ++ ' ' :: joinSpace (w2 :: rest) := rfl
      rw [hj, List.getLast?_append_of_ne_nil w (by simp)]
      rw [show (' ' :: joinSpace (w2 :: rest)) = [' '] ++ joinSpace (w2 :: rest) from rfl]
      rw [List.getLast?_append_of_ne_nil [' '] hne2]
      exact hc

/-- Stripping is the identity on a clean join. -/
theorem pyStrip_joinSpace (ws : List (List Char))
    (hclean : ∀ w ∈ ws, cleanWord w = true) :
    pyStrip (joinSpace ws) = joinSpace ws := by
  cases ws with
  | nil => rfl
  | cons w ws' =>
    have hw : cleanWord w = true := hclean w (List.mem_cons_self w ws')
    obtain ⟨c, w', hweq⟩ : ∃ c w', w = c :: w' := by
      cases w with
      | nil => exact absurd rfl (cleanWord_parts [] hw).1
      | cons c w' => exact ⟨c, w', rfl⟩
    subst hweq
    have hcl : isLowerAZ c = true :=
      (cleanWord_parts _ hw).2.1 c (List.mem_cons_self c w')
    obtain ⟨rest, hjoin⟩ := joinSpace_cons_head c w' ws'
    obtain ⟨d, hd, hdl⟩ := joinSpace_getLast_lower ((c :: w') :: ws') (by simp) hclean
    unfold pyStrip
    have h1 : (joinSpace ((c :: w') :: ws')).dropWhile isPySpace =
        joinSpace ((c :: w') :: ws') := by
      rw [hjoin, List.dropWhile_cons,
        if_neg (by simp [isPySpace_eq_false_of_lower c hcl])]
    rw [h1]
    cases hrevl : (joinSpace ((c :: w') :: ws')).reverse with
    | nil =>
      exfalso
      rw [List.reverse_eq_nil_iff, hjoin] at hrevl
      exact List.noConfusion hrevl
    | cons d0 r0 =>
      have hd0 : d0 = d := by
        have h2 : (joinSpace ((c :: w') :: ws')).reverse.head? = some d := by
          rw [List.head?_reverse]
          exact hd
        rw [hrevl] at h2
        simpa using h2
      rw [List.dropWhile_cons,
        if_neg (by rw [hd0]; simp [isPySpace_eq_false_of_lower d hdl])]
      rw [← hrevl, List.reverse_reverse]

/-- All seventeen pattern substitutions are the identity on a clean join. -/
theorem applyPatterns_clean (ws : List (List Char))
    (hclean : ∀ w ∈ ws, cleanWord w = true) :
    applyPatterns (joinSpace ws) = joinSpace ws := by
  have hchars := joinSpace_chars ws hclean
  have hsub : ∀ t, t <:+ joinSpace ws → ∀ c ∈ t, lowerOrSpace c = true :=
    fun t ht c hc => hchars c (ht.subset hc)
  have hscan : ∀ m, (∀ t, t <:+ joinSpace ws → m t = none) →
      scanSub m (joinSpace ws) = joinSpace ws :=
    fun m hm => scanSubF_eq_self m _ _ hm
  have hnp : ∀ kw ∈ optNumKws ++ eolKws, ∀ w ∈ ws, kw.isPrefixOf w = false :=
    fun kw hkw w hw => (cleanWord_parts w (hclean w hw)).2.2.1 kw hkw
  simp only [applyPatterns, optNumKws, numKws, eolKws, List.foldl_cons, List.foldl_nil]
  rw [hscan _ fun t ht => matchSepToEOL_none_chars '-' (by decide) t (hsub t ht)]
  rw [hscan _ fun t ht => matchSepToEOL_none_chars ',' (by decide) t (hsub t ht)]
  rw [hscan _ fun t ht => matchHash_none_chars t (hsub t ht)]
  rw [hscan _ fun t ht => matchParen_none_chars t (hsub t ht)]
  rw [hscan _ fun t ht => matchKwOptNum_none_clean _ (by decide) ws hclean
    (hnp _ (by decide)) t ht]
  rw [hscan _ fun t ht => matchKwOptNum_none_clean _ (by decide) ws hclean
    (hnp _ (by decide)) t ht]
  rw [hscan _ fun t ht => matchKwOptNum_none_clean _ (by decide) ws hclean
    (hnp _ (by decide)) t ht]
  rw [hscan _ fun t ht => matchKwOptNum_none_clean _ (by decide) ws hclean
    (hnp _ (by decide)) t ht]
  rw [hscan _ fun t ht => matchKwNum_none_chars _ t (hsub t ht)]
  rw [hscan _ fun t ht => matchKwNum_none_chars _ t (hsub t ht)]
  rw [hscan _ fun t ht => matchKwNum_none_chars _ t (hsub t ht)]
  rw [hscan _ fun t ht => matchKwNum_none_chars _ t (hsub t ht)]
  rw [hscan _ fun t ht => matchBlock_none_clean ws hclean t ht]
  rw [hscan _ fun t ht => matchKwToEOL_none_clean _ (by decide) ws hclean
    (hnp _ (by decide)) t ht]
  rw [hscan _ fun t ht => matchKwToEOL_none_clean _ (by decide) ws hclean
    (hnp _ (by decide)) t ht]
  rw [hscan _ fun t ht => matchKwToEOL_none_clean _ (by decide) ws hclean
    (hnp _ (by decide)) t ht]
  rw [hscan _ fun t ht => matchKwToEOL_none_clean _ (by decide) ws hclean
    (hnp _ (by decide)) t ht]

/-- Normalization fixes the join of at most three clean words. -/
theorem normalizeChars_clean_fixed (ws : List (List Char)) (hlen : ws.length ≤ 3)
    (hclean : ∀ w ∈ ws, cleanWord w = true) :
    normalizeChars (joinSpace ws) = joinSpace ws := by
  cases ws with
  | nil => rfl
  | cons w ws' =>
    have hw : cleanWord w = true := hclean w (List.mem_cons_self w ws')
    obtain ⟨c, w', hweq⟩ : ∃ c w', w = c :: w' := by
      cases w with
      | nil => exact absurd rfl (cleanWord_parts [] hw).1
      | cons c w' => exact ⟨c, w', rfl⟩
    have hne : joinSpace (w :: ws') ≠ [] := by
      subst hweq
      obtain ⟨rest, hjoin⟩ := joinSpace_cons_head c w' ws'
      rw [hjoin]
      exact List.noConfusion
    unfold normalizeChars
    rw [if_neg hne]
    have hsplit : pySplit (joinSpace (w :: ws')) = w :: ws' :=
      pySplitF_joinSpace (w :: ws') (joinSpace (w :: ws')).length hclean (Nat.le_refl _)
    have hrep1 : replaceList [apos, 's'] (joinSpace (w :: ws')) = joinSpace (w :: ws') :=
      replaceListF_eq_self apos ['s'] _ _ (apos_not_mem _ (joinSpace_chars _ hclean))
    have hrep2 : replaceList [apos] (joinSpace (w :: ws')) = joinSpace (w :: ws') :=
      replaceListF_eq_self apos [] _ _ (apos_not_mem _ (joinSpace_chars _ hclean))
    simp only [map_toLower_eq_self _ (joinSpace_chars _ hclean), hrep1, hrep2,
      applyPatterns_clean _ hclean, hsplit, pyStrip_joinSpace _ hclean]
    rw [if_neg]
    omega

/-- C3 amended: normalization is not idempotent on all strings (see the
counterexample), but it is idempotent on every single-space-separated
phrase of at most three nonempty lowercase-ASCII words none of which starts
with branch, outlet, store, shop, mall, market, plaza or complex and none
of which is the word block; on such phrases it is in fact the identity. -/
theorem c3_amended_idempotent_on_clean_phrases (ws : List (List Char))
    (h : cleanWords ws = true) :
    normalize_brand_name (normalize_brand_name (String.mk (joinSpace ws))) =
      normalize_brand_name (String.mk (joinSpace ws)) := by
  have hparts : ws.length ≤ 3 ∧ ∀ w ∈ ws, cleanWord w = true := by
    simp only [cleanWords, Bool.and_eq_true, decide_eq_true_eq, List.all_eq_true] at h
    exact h
  have hfix := normalizeChars_clean_fixed ws hparts.1 hparts.2
  show String.mk (normalizeChars (normalizeChars (joinSpace ws))) =
    String.mk (normalizeChars (joinSpace ws))
  rw [hfix, hfix]

/-- C3 witness: the amended idempotence applied to the two-word phrase of
the specification example (sharma cafe). -/
theorem c3_witness :
    normalize_brand_name (normalize_brand_name
      (String.mk (joinSpace [['s','h','a','r','m','a'], ['c','a','f','e']]))) =
      normalize_brand_name
        (String.mk (joinSpace [['s','h','a','r','m','a'], ['c','a','f','e']])) :=
  c3_amended_idempotent_on_clean_phrases
    [['s','h','a','r','m','a'], ['c','a','f','e']] (by decide)

end CityChain
